import Mathlib

/-!
# Verification of the `collections` library core

Shallow embedding of the two algorithmic components of the
FollowTheProcess/collections Go library:

* `priority` — a binary max-heap priority queue (`src/priority/queue.go`),
  embedded as a `List (Element T)` (the `container` slice) with index-based
  sift-up / sift-down exactly as in the source.
* `dag` — a directed graph with Kahn's-algorithm topological sort
  (`src/dag/dag.go`), embedded as an association list of vertices keyed by
  the caller-supplied id.  Vertex pointers in the Go code are in bijection
  with ids (one vertex per id, never deleted), so adjacency sets of vertex
  pointers are embedded as lists of ids with set semantics.

Go map iteration order is non-deterministic; the embedding therefore takes
the iteration order of the vertex map as an explicit argument (`vorder`) and
theorems quantify over all permutations of the key set, matching the claims.
-/

namespace Collections

/-! ## Definitions: the `priority` package -/

namespace Priority

/-- One entry of the priority queue: the stored item with its priority
(Go `Element[T]`, `src/priority/queue.go` lines 10-13).  Go's `int` priority
is embedded as `Int`. -/
structure Element (T : Type) where
  item : T
  priority : Int
  deriving DecidableEq, Repr

variable {T : Type}

instance [Inhabited T] : Inhabited (Element T) :=
  ⟨⟨default, 0⟩⟩

/-- Total list read used to embed Go slice indexing `q.container[i]`;
all source reads are in bounds, the `default` branch is never reached there. -/
def getE [Inhabited T] : List (Element T) → Nat → Element T
  | [], _ => default
  | x :: _, 0 => x
  | _ :: xs, n + 1 => getE xs n

/-- Total list write used to embed Go slice writes; out-of-range writes
(never performed by the source) leave the list unchanged. -/
def setE : List (Element T) → Nat → Element T → List (Element T)
  | [], _, _ => []
  | _ :: xs, 0, e => e :: xs
  | x :: xs, n + 1, e => x :: setE xs n e

/-- `swap` (`queue.go` lines 156-158): exchange the elements at indices
`i` and `j` (both reads happen before both writes, as in Go's parallel
assignment). -/
def swapL [Inhabited T] (l : List (Element T)) (i j : Nat) : List (Element T) :=
  setE (setE l i (getE l j)) j (getE l i)

/-- Priority at an index, embedding `q.container[i].Priority`. -/
def prio [Inhabited T] (l : List (Element T)) (i : Nat) : Int :=
  (getE l i).priority

section Ops

variable [Inhabited T]

/-- Loop body of `siftUp` (`queue.go` lines 123-132).  Go breaks out of the
loop when `parent == index` (which happens exactly at `index == 0`, since
Go's `(0-1)/2 == 0` and `(i-1)/2 < i` for `i ≥ 1`; Nat subtraction gives
the same `(0-1)/2 = 0`) or when the child's priority is strictly below the
parent's; otherwise it swaps and continues from the parent index.  `index`
strictly decreases, so `fuel = index + 1` never runs out
(`siftUpGo_fuel_irrel`); the fuel only makes the recursion structural. -/
def siftUpGo : Nat → List (Element T) → Nat → List (Element T)
  | 0, q, _ => q
  | fuel + 1, q, index =>
    if (index - 1) / 2 = index ∨ prio q index < prio q ((index - 1) / 2) then q
    else siftUpGo fuel (swapL q ((index - 1) / 2) index) ((index - 1) / 2)

/-- `siftUp` (`queue.go` lines 123-132): move the element at `index` up the
heap. -/
def siftUp (q : List (Element T)) (index : Nat) : List (Element T) :=
  siftUpGo (index + 1) q index

/-- The `toSwap` selection inside `siftDown` (`queue.go` lines 142-145):
the left child, unless a right child exists in range and has strictly
greater priority (`q.less(rightChild, leftChild)`). -/
def pickChild (q : List (Element T)) (i length : Nat) : Nat :=
  if 2 * i + 2 < length ∧ prio q (2 * i + 1) < prio q (2 * i + 2) then 2 * i + 2
  else 2 * i + 1

/-- Loop body of `siftDown` (`queue.go` lines 135-153).  The Go loop breaks
when `leftChild >= length` (the `leftChild < 0` overflow guard is
unreachable for Nat) or when the selected child does not strictly exceed
the current element (`!q.less(toSwap, i)`).  The Go function also returns
a Bool (`i > index`) that no caller uses; the embedding returns just the
list.  The index strictly increases towards `length`, so
`fuel = length - i` never runs out (`siftDownGo_fuel_irrel`); the fuel only
makes the recursion structural. -/
def siftDownGo : Nat → List (Element T) → Nat → Nat → List (Element T)
  | 0, q, _, _ => q
  | fuel + 1, q, i, length =>
    if length ≤ 2 * i + 1 then q
    else if prio q i < prio q (pickChild q i length) then
      siftDownGo fuel (swapL q i (pickChild q i length)) (pickChild q i length) length
    else q

/-- `siftDown` (`queue.go` lines 135-153): move the element at `i` down the
heap over the index range `[0, length)`. -/
def siftDown (q : List (Element T)) (i length : Nat) : List (Element T) :=
  siftDownGo (length - i) q i length

/-- The countdown loop of `init` (`queue.go` lines 114-119): runs
`siftDown` at indices `c-1, c-2, ..., 0`.  Called with `c = n/2` this is
Go's `for i := n/2 - 1; i >= 0; i--` (for `n ≤ 1` Go's start index is
negative and the loop body never runs; here `c = n/2 = 0` likewise). -/
def initAux (n : Nat) : List (Element T) → Nat → List (Element T)
  | q, 0 => q
  | q, c + 1 => initAux n (siftDown q c n) c

/-- `init` (`queue.go` lines 114-119): bottom-up heapify of the container. -/
def heapInit (q : List (Element T)) : List (Element T) :=
  initAux q.length q (q.length / 2)

/-- `Push` (`queue.go` lines 76-79): append, then sift the new last element
up. -/
def push (q : List (Element T)) (item : T) (priority : Int) : List (Element T) :=
  siftUp (q ++ [Element.mk item priority]) ((q ++ [Element.mk item priority]).length - 1)

/-- `Pop` (`queue.go` lines 82-100) returns `(item, error)` and mutates the
receiver; the embedding returns `(item, new container, error)`.  On the
empty queue Go returns the zero value of `T` (Lean `default`) and an error
and leaves the container untouched; otherwise it swaps the root with the
last element, trims the last slot, sifts the root down over the shrunk
range and returns the trimmed element's item. -/
def pop (q : List (Element T)) : T × List (Element T) × Option String :=
  if q.length = 0 then (default, q, some "pop from empty priority queue")
  else
    let n := q.length - 1
    let q1 := swapL q 0 n
    ((getE q1 n).item, siftDown (q1.take n) 0 n, none)

/-- `From` (`queue.go` lines 33-44): copy the caller's elements and heapify.
The Go copy into a fresh slice is the identity on contents. -/
def fromList (elements : List (Element T)) : List (Element T) :=
  heapInit elements

/-- `FromFunc` (`queue.go` lines 57-70): build elements by applying the
priority function to each item, then heapify. -/
def fromFunc (items : List T) (priorityFunc : T → Int) : List (Element T) :=
  heapInit (items.map fun item => Element.mk item (priorityFunc item))

/-- `Size` (`queue.go` lines 103-105). -/
def sizeQ (q : List (Element T)) : Nat := q.length

/-- `Empty` (`queue.go` lines 108-110). -/
def emptyQ (q : List (Element T)) : Bool := q.length == 0

/-- The sift-up loop invariant: the heap property holds for every pair not
having the moving index `x` as the child, and (when `x` is not the root)
`x`'s own children are already dominated by `x`'s parent. -/
def UpInv (q : List (Element T)) (n x : Nat) : Prop :=
  (∀ p c, (c = 2 * p + 1 ∨ c = 2 * p + 2) → c < n → c ≠ x → prio q c ≤ prio q p) ∧
  (∀ c, (c = 2 * x + 1 ∨ c = 2 * x + 2) → c < n → 0 < x →
    prio q c ≤ prio q ((x - 1) / 2))

/-- The sequence of elements removed by popping until empty; at each step
the recorded element is exactly the one whose `item` the source `Pop`
returns (the pre-swap root), and the recursion continues on the container
`Pop` leaves behind.  The fuel is the container length, which `Pop`
strictly decreases. -/
def popSeqGo : Nat → List (Element T) → List (Element T)
  | 0, _ => []
  | fuel + 1, q =>
    if q.length = 0 then []
    else
      getE (swapL q 0 (q.length - 1)) (q.length - 1) ::
        popSeqGo fuel
          (siftDown ((swapL q 0 (q.length - 1)).take (q.length - 1)) 0 (q.length - 1))

def popSeq (q : List (Element T)) : List (Element T) :=
  popSeqGo q.length q

/-- Pushing a whole list of elements, in list order. -/
def pushAll (q : List (Element T)) (l : List (Element T)) : List (Element T) :=
  l.foldl (fun acc e => push acc e.item e.priority) q

end Ops

/-- The binary max-heap property on the index range `[k, n)` of parents:
every in-range child of a parent index `p ≥ k` has priority at most the
parent's.  `IsHeapFrom q n 0` is the invariant stated by the spec. -/
def IsHeapFrom [Inhabited T] (q : List (Element T)) (n k : Nat) : Prop :=
  ∀ p c, k ≤ p → (c = 2 * p + 1 ∨ c = 2 * p + 2) → c < n → prio q c ≤ prio q p

/-- The spec's heap invariant over the whole container. -/
def IsHeap [Inhabited T] (q : List (Element T)) : Prop :=
  IsHeapFrom q q.length 0

instance [Inhabited T] (q : List (Element T)) (n k : Nat) :
    Decidable (IsHeapFrom q n k) :=
  decidable_of_iff
    (∀ p, p < n → ∀ c, c < n →
      (k ≤ p → (c = 2 * p + 1 ∨ c = 2 * p + 2) → prio q c ≤ prio q p))
    (by
      constructor
      · intro h p c hk hch hc
        have hp : p < n := by rcases hch with rfl | rfl <;> omega
        exact h p hp c hc hk hch
      · intro h p _hp c hc hk hch
        exact h p c hk hch hc)

instance [Inhabited T] (q : List (Element T)) : Decidable (IsHeap q) :=
  inferInstanceAs (Decidable (IsHeapFrom q q.length 0))

/-- `desc i k`: index `k` lies in the subtree rooted at index `i` of the
binary tree on array indices (the parent of `k > 0` is `(k-1)/2`).
`siftDown` started at `i` only touches indices in this subtree. -/
def desc (i : Nat) (k : Nat) : Bool :=
  if k < i then false
  else if k = i then true
  else desc i ((k - 1) / 2)
termination_by k
decreasing_by omega

/-- Queue states reachable through the public constructors and operations
of the `priority` package: `New`, `From`, `FromFunc`, and any number of
`Push`/`Pop` calls. -/
inductive Reachable [Inhabited T] : List (Element T) → Prop
  | new : Reachable []
  | fromList (elements : List (Element T)) : Reachable (fromList elements)
  | fromFunc (items : List T) (priorityFunc : T → Int) :
      Reachable (fromFunc items priorityFunc)
  | push (q : List (Element T)) (item : T) (priority : Int) :
      Reachable q → Reachable (push q item priority)
  | pop (q : List (Element T)) : Reachable q → Reachable (pop q).2.1

/-- The sift-up loop exactly as the specification's words for `Push`
describe it ("if the new element's priority exceeds the parent's, swap and
continue; stop when reaching the root or when the parent's priority is ≥
the child's"): the swap requires the child to *strictly* exceed the
parent. -/
def siftUpStrictGo [Inhabited T] : Nat → List (Element T) → Nat → List (Element T)
  | 0, q, _ => q
  | fuel + 1, q, index =>
    if index = 0 then q
    else if prio q ((index - 1) / 2) < prio q index then
      siftUpStrictGo fuel (swapL q ((index - 1) / 2) index) ((index - 1) / 2)
    else q

/-- `Push` as the claim describes it: append, then strict sift-up. -/
def pushSpecStrict [Inhabited T] (q : List (Element T)) (item : T) (priority : Int) :
    List (Element T) :=
  siftUpStrictGo ((q ++ [Element.mk item priority]).length - 1 + 1)
    (q ++ [Element.mk item priority]) ((q ++ [Element.mk item priority]).length - 1)

/-- The sift-up loop as amended: swap and continue whenever the new
element's priority is greater than **or equal to** the parent's; stop at
the root or when the parent's priority strictly exceeds the child's. -/
def siftUpAmendGo [Inhabited T] : Nat → List (Element T) → Nat → List (Element T)
  | 0, q, _ => q
  | fuel + 1, q, index =>
    if index = 0 then q
    else if prio q index < prio q ((index - 1) / 2) then q
    else siftUpAmendGo fuel (swapL q ((index - 1) / 2) index) ((index - 1) / 2)

/-- `Push` as amended: append, then sift-up moving past equal-priority
parents. -/
def pushSpecAmended [Inhabited T] (q : List (Element T)) (item : T) (priority : Int) :
    List (Element T) :=
  siftUpAmendGo ((q ++ [Element.mk item priority]).length - 1 + 1)
    (q ++ [Element.mk item priority]) ((q ++ [Element.mk item priority]).length - 1)

end Priority

/-! ## Definitions: the `dag` package -/

namespace Dag

/-- A vertex of the graph (`dag.go` lines 12-16).  In Go each vertex is a
heap object reached through a unique pointer held in the id-keyed map;
vertices are created once per id and never deleted, so vertex pointers are
in bijection with ids and the `parents`/`children` sets of vertex pointers
are embedded as lists of ids with set semantics (no duplicates;
`set.Insert` is a no-op on a present element, `set.Remove` deletes it). -/
structure Vertex (K T : Type) where
  parents : List K
  children : List K
  item : T
  deriving DecidableEq, Repr

/-- The graph (`dag.go` lines 37-40): the id-to-vertex map is embedded as
an association list with unique keys (`WellFormed`), and Go's
non-deterministic map iteration order is supplied explicitly to `sortGraph`
as `vorder`. -/
structure Graph (K T : Type) where
  vertices : List (K × Vertex K T)
  edges : Nat
  deriving DecidableEq, Repr

/-- The error kinds of the dag package.  The Go code returns `fmt.Errorf`
strings; each constructor stands for one of them:
`duplicateVertex` = "vertex with id '%v' already exists",
`vertexNotFound` = "vertex with id '%v' not in graph",
`parentNotFound` = "parent vertex with id '%v' not in graph",
`childNotFound` = "child vertex with id '%v' not in graph",
`cycleDetected` = "graph contains a cycle and cannot be sorted". -/
inductive GraphError : Type
  | duplicateVertex
  | vertexNotFound
  | parentNotFound
  | childNotFound
  | cycleDetected
  deriving DecidableEq, Repr

variable {K T : Type} [DecidableEq K]

/-- Go map lookup `g.vertices[id]` on the association-list embedding. -/
def lookupV : List (K × Vertex K T) → K → Option (Vertex K T)
  | [], _ => none
  | (k', v) :: rest, k => if k = k' then some v else lookupV rest k

/-- In-place update of the vertex stored under a key (Go mutates the heap
object the map points to). -/
def modifyV : List (K × Vertex K T) → K → (Vertex K T → Vertex K T) →
    List (K × Vertex K T)
  | [], _, _ => []
  | (k', v) :: rest, k, f =>
    if k = k' then (k', f v) :: rest else (k', v) :: modifyV rest k f

/-- `set.Insert` (`set.go` lines 79-93) on the id-list embedding of a set:
no-op when present, otherwise adds the element. -/
def setInsert (l : List K) (k : K) : List K :=
  if k ∈ l then l else l ++ [k]

/-- `set.Remove` (`set.go` lines 110-116): deletes the element when
present (a set never holds duplicates, so removing the first occurrence
deletes it). -/
def setRemove : List K → K → List K
  | [], _ => []
  | x :: rest, k => if x = k then rest else x :: setRemove rest k

def keysOf (vs : List (K × Vertex K T)) : List K :=
  vs.map Prod.fst

/-- The children ids of the vertex stored at `k` (empty for an absent
key). -/
def childrenOf (vs : List (K × Vertex K T)) (k : K) : List K :=
  match lookupV vs k with
  | some v => v.children
  | none => []

/-- The parent ids of the vertex stored at `k` (empty for an absent
key). -/
def parentsOf (vs : List (K × Vertex K T)) (k : K) : List K :=
  match lookupV vs k with
  | some v => v.parents
  | none => []

/-- `New` (`dag.go` lines 52-56). -/
def new : Graph K T :=
  ⟨[], 0⟩

/-- `Order` (`dag.go` lines 69-71): number of vertices. -/
def order (g : Graph K T) : Nat :=
  g.vertices.length

/-- `Size` (`dag.go` lines 74-76): the edge counter. -/
def size (g : Graph K T) : Nat :=
  g.edges

/-- `ContainsVertex` (`dag.go` lines 109-112). -/
def containsVertex (g : Graph K T) (id : K) : Bool :=
  (lookupV g.vertices id).isSome

/-- `AddVertex` (`dag.go` lines 86-93): error and no mutation when the id
is present, otherwise insert a fresh vertex with empty parent and child
sets.  Returned as (graph after the call, error). -/
def addVertex (g : Graph K T) (id : K) (item : T) : Graph K T × Option GraphError :=
  if (lookupV g.vertices id).isSome then (g, some .duplicateVertex)
  else ({ vertices := g.vertices ++ [(id, ⟨[], [], item⟩)], edges := g.edges }, none)

/-- `GetVertex` (`dag.go` lines 98-106): the stored item, or the zero
value and an error. -/
def getVertex [Inhabited T] (g : Graph K T) (id : K) : T × Option GraphError :=
  match lookupV g.vertices id with
  | some v => (v.item, none)
  | none => (default, some .vertexNotFound)

/-- `AddEdge` (`dag.go` lines 121-138): check the parent id first, then the
child id; on success insert the child id into the parent's children set and
the parent id into the child's parents set, and increment the edge counter
(unconditionally, even if the edge already existed). -/
def addEdge (g : Graph K T) (fromId toId : K) : Graph K T × Option GraphError :=
  match lookupV g.vertices fromId with
  | none => (g, some .parentNotFound)
  | some _ =>
    match lookupV g.vertices toId with
    | none => (g, some .childNotFound)
    | some _ =>
      let vs1 := modifyV g.vertices fromId
        (fun v => { v with children := setInsert v.children toId })
      let vs2 := modifyV vs1 toId
        (fun v => { v with parents := setInsert v.parents fromId })
      ({ vertices := vs2, edges := g.edges + 1 }, none)

/-- The child-processing loop inside `Sort` (`dag.go` lines 173-180): for
each child of the popped vertex `k`, remove `k` from the child's parents
set and, if the child's in-degree is now zero, push it on the frontier
queue. -/
def processChildren : List (K × Vertex K T) → List K → K → List K →
    List (K × Vertex K T) × List K
  | vs, q, _, [] => (vs, q)
  | vs, q, k, c :: cs =>
    let vs' := modifyV vs c (fun v => { v with parents := setRemove v.parents k })
    let q' := match lookupV vs' c with
      | some cv => if cv.parents.length = 0 then q ++ [c] else q
      | none => q
    processChildren vs' q' k cs

/-- The drain loop of `Sort` (`dag.go` lines 165-181): pop the frontier
queue (FIFO), append the popped vertex's item (the accumulator keeps the
id alongside, `Sort` projects it away), process its children.  Each pop
consumes one unit of fuel; for well-formed graphs every vertex is queued
at most once, so `order g` fuel never runs out (`sortLoop_spec`).  `none`
(fuel exhausted or a dangling queue id) is unreachable from well-formed
states. -/
def sortLoop : Nat → List (K × Vertex K T) → List K → List (K × T) →
    Option (List (K × T) × List (K × Vertex K T))
  | _, vs, [], acc => some (acc, vs)
  | 0, _, _ :: _, _ => none
  | fuel + 1, vs, k :: rest, acc =>
    match lookupV vs k with
    | none => none
    | some vert =>
      let s := processChildren vs rest k vert.children
      sortLoop fuel s.1 s.2 (acc ++ [(k, vert.item)])

/-- The initial zero-in-degree scan of `Sort` (`dag.go` lines 151-156),
over the supplied map iteration order. -/
def sortQueueInit (vs : List (K × Vertex K T)) (vorder : List K) : List K :=
  vorder.filter fun k =>
    match lookupV vs k with
    | some v => v.parents.length == 0
    | none => false

/-- `Sort` (`dag.go` lines 145-184) on the vertex map, parameterised by the
map iteration order: scan for zero-in-degree vertices, fail with the cycle
error if none exist, otherwise drain with Kahn's algorithm.  Returns
(result sequence, error, vertex map after the destructive drain). -/
def sortCore (vs : List (K × Vertex K T)) (vorder : List K) :
    Option (List T × Option GraphError × List (K × Vertex K T)) :=
  let initQ := sortQueueInit vs vorder
  if initQ.isEmpty then some ([], some .cycleDetected, vs)
  else
    match sortLoop vs.length vs initQ [] with
    | some (acc, vs') => some (acc.map Prod.snd, none, vs')
    | none => none

/-- `Sort` at the graph level: the edge counter is untouched. -/
def sortGraph (g : Graph K T) (vorder : List K) :
    Option (List T × Option GraphError × Graph K T) :=
  (sortCore g.vertices vorder).map fun r =>
    (r.1, r.2.1, { vertices := r.2.2, edges := g.edges })

/-- Well-formedness of the embedded vertex map, satisfied by every vertex
map built through the public API: unique keys, duplicate-free adjacency
lists closed over the key set, and the parent/child mirror invariant. -/
def WellFormedV (vs : List (K × Vertex K T)) : Prop :=
  (keysOf vs).Nodup ∧
  (∀ p ∈ vs, p.2.parents.Nodup ∧ p.2.children.Nodup ∧
    (∀ u ∈ p.2.parents, u ∈ keysOf vs) ∧
    (∀ c ∈ p.2.children, c ∈ keysOf vs)) ∧
  (∀ p ∈ vs, ∀ c ∈ p.2.children, p.1 ∈ parentsOf vs c) ∧
  (∀ p ∈ vs, ∀ u ∈ p.2.parents, p.1 ∈ childrenOf vs u)

/-- Well-formedness of a graph. -/
def WellFormed (g : Graph K T) : Prop :=
  WellFormedV g.vertices

/-- The edge relation of a graph state: `edgeRel g u v` iff an edge
`u → v` is recorded in `u`'s children set. -/
def edgeRel (g : Graph K T) (u v : K) : Prop :=
  v ∈ childrenOf g.vertices u

/-- Acyclicity: the edge relation is well-founded (no infinite ancestor
chains, hence no cycles). -/
def Acyclic (g : Graph K T) : Prop :=
  WellFounded (edgeRel g)

/-- `u` occurs strictly before `v` in the list `l`. -/
def Before (l : List K) (u v : K) : Prop :=
  ∃ l₁ l₂ l₃, l = l₁ ++ u :: l₂ ++ v :: l₃

/-- The payload stored at a key (the `default` branch is never taken for
keys of the graph). -/
def payloadOf [Inhabited T] (vs : List (K × Vertex K T)) (k : K) : T :=
  match lookupV vs k with
  | some v => v.item
  | none => default

/-- The invariant of the drain loop of `Sort`, relating the current state
(vertex map `vs`, frontier queue `q`, accumulator `acc` of emitted
(id, payload) pairs) to the map `vs0` the call started from. -/
structure LoopInv (vs0 vs : List (K × Vertex K T)) (q : List K)
    (acc : List (K × T)) : Prop where
  keysEq : keysOf vs = keysOf vs0
  pres : ∀ k v0, lookupV vs0 k = some v0 → ∃ v, lookupV vs k = some v ∧
    v.children = v0.children ∧ v.item = v0.item ∧ v.parents.Sublist v0.parents
  removedEmitted : ∀ k v0 v, lookupV vs0 k = some v0 → lookupV vs k = some v →
    ∀ u ∈ v0.parents, u ∉ v.parents → u ∈ acc.map Prod.fst
  frontEmpty : ∀ k ∈ acc.map Prod.fst ++ q, parentsOf vs k = []
  nodupFront : (acc.map Prod.fst ++ q).Nodup
  frontKeys : ∀ k ∈ acc.map Prod.fst ++ q, k ∈ keysOf vs0
  emptyFront : ∀ k ∈ keysOf vs0, parentsOf vs k = [] → k ∈ acc.map Prod.fst ++ q
  emittedDone : ∀ u ∈ acc.map Prod.fst, ∀ x, u ∉ parentsOf vs x
  beforeParents : ∀ v ∈ acc.map Prod.fst, ∀ u, u ∈ parentsOf vs0 v →
    Before (acc.map Prod.fst) u v
  accItems : ∀ p ∈ acc, ∃ v0, lookupV vs0 p.1 = some v0 ∧ v0.item = p.2
  selfPres : ∀ v, v ∈ parentsOf vs0 v → v ∈ parentsOf vs v

/-- The invariant of the child-processing loop inside one pop of `Sort`:
`vs` is the map as the pop of `k` began, `vsc`/`qc` the current map and
queue, `cs` the children of `k` still to process. -/
structure MidInv (vs0 vs : List (K × Vertex K T)) (k : K) (acc : List (K × T))
    (vsc : List (K × Vertex K T)) (qc : List K) (cs : List K) : Prop where
  keysEq : keysOf vsc = keysOf vs0
  pres : ∀ x v0, lookupV vs0 x = some v0 → ∃ v, lookupV vsc x = some v ∧
    v.children = v0.children ∧ v.item = v0.item ∧ v.parents.Sublist v0.parents
  removedEmitted : ∀ x v0 v, lookupV vs0 x = some v0 → lookupV vsc x = some v →
    ∀ u ∈ v0.parents, u ∉ v.parents → u ∈ acc.map Prod.fst ++ [k]
  frontEmpty : ∀ x ∈ (acc.map Prod.fst ++ [k]) ++ qc, parentsOf vsc x = []
  nodupFront : ((acc.map Prod.fst ++ [k]) ++ qc).Nodup
  frontKeys : ∀ x ∈ (acc.map Prod.fst ++ [k]) ++ qc, x ∈ keysOf vs0
  emptyFront : ∀ x ∈ keysOf vs0, parentsOf vsc x = [] →
    x ∈ (acc.map Prod.fst ++ [k]) ++ qc
  emittedDone : ∀ u ∈ acc.map Prod.fst, ∀ x, u ∉ parentsOf vsc x
  poppedDone : ∀ x, x ∉ cs → k ∉ parentsOf vsc x
  todoUntouched : ∀ c ∈ cs, parentsOf vsc c = parentsOf vs c
  selfPres : ∀ v, v ∈ parentsOf vs0 v → v ∈ parentsOf vsc v

/-- Graph states reachable through the public mutating operations of the
dag package (`New`, `AddVertex`, `AddEdge`), successful or failed (a
failed call leaves the graph unchanged). -/
inductive ReachableG : Graph K T → Prop
  | new : ReachableG new
  | addVertex (g : Graph K T) (id : K) (item : T) :
      ReachableG g → ReachableG (addVertex g id item).1
  | addEdge (g : Graph K T) (fromId toId : K) :
      ReachableG g → ReachableG (addEdge g fromId toId).1

/-- Concrete graph for C1: an isolated vertex `0 ↦ 10` next to the
two-cycle `1 → 2 → 1` (payloads 11, 12), built through the public API. -/
def c1Graph : Graph Nat Nat :=
  (addEdge (addEdge (addVertex (addVertex (addVertex (new : Graph Nat Nat)
    0 10).1 1 11).1 2 12).1 1 2).1 2 1).1

/-- Concrete graph for C2: vertices `0 ↦ 1`, `1 ↦ 2` and the edge
`0 → 1`. -/
def c2Graph : Graph Nat Nat :=
  (addEdge (addVertex (addVertex (new : Graph Nat Nat) 0 1).1 1 2).1 0 1).1

/-- Concrete graph for C3: a self-loop on vertex `0 ↦ 20` next to the
isolated vertex `1 ↦ 21`. -/
def c3Graph : Graph Nat Nat :=
  (addEdge (addVertex (addVertex (new : Graph Nat Nat) 0 20).1 1 21).1 0 0).1

/-- Concrete two-cycle graph for the C4 witness: vertices `0 ↦ 1`,
`1 ↦ 2`, edges `0 → 1` and `1 → 0`. -/
def c4Graph : Graph Nat Nat :=
  (addEdge (addEdge (addVertex (addVertex (new : Graph Nat Nat)
    0 1).1 1 2).1 0 1).1 1 0).1

/-- Concrete graph for C10: vertices `0 ↦ 1`, `1 ↦ 2` and the existing
edge `0 → 1`. -/
def c10Graph : Graph Nat Nat :=
  (addEdge (addVertex (addVertex (new : Graph Nat Nat) 0 1).1 1 2).1 0 1).1

/-- Acyclic single-vertex graph used by the C1 witness. -/
def w1Graph : Graph Nat Nat :=
  (addVertex (new : Graph Nat Nat) 0 5).1

instance (vs : List (K × Vertex K T)) : Decidable (WellFormedV vs) := by
  unfold WellFormedV
  infer_instance

instance (g : Graph K T) : Decidable (WellFormed g) := by
  unfold WellFormed
  infer_instance

end Dag

/-! ## Theorems: the `priority` package -/

namespace Priority

variable {T : Type}

@[simp]
theorem length_setE (l : List (Element T)) (i : Nat) (e : Element T) :
    (setE l i e).length = l.length := by
  induction l generalizing i with
  | nil => rfl
  | cons x xs ih =>
    cases i with
    | zero => rfl
    | succ n => simp [setE, ih]

@[simp]
theorem length_swapL [Inhabited T] (l : List (Element T)) (i j : Nat) :
    (swapL l i j).length = l.length := by
  simp [swapL]

theorem getE_setE_eq [Inhabited T] (l : List (Element T)) (i : Nat) (e : Element T)
    (h : i < l.length) : getE (setE l i e) i = e := by
  induction l generalizing i with
  | nil => simp at h
  | cons x xs ih =>
    cases i with
    | zero => rfl
    | succ n =>
      simp only [List.length_cons] at h
      exact ih n (by omega)

theorem getE_setE_ne [Inhabited T] (l : List (Element T)) (i k : Nat) (e : Element T)
    (h : k ≠ i) : getE (setE l i e) k = getE l k := by
  induction l generalizing i k with
  | nil => rfl
  | cons x xs ih =>
    cases i with
    | zero =>
      cases k with
      | zero => exact absurd rfl h
      | succ m => rfl
    | succ n =>
      cases k with
      | zero => rfl
      | succ m => exact ih n m (by omega)

theorem setE_oob (l : List (Element T)) (i : Nat) (e : Element T)
    (h : l.length ≤ i) : setE l i e = l := by
  induction l generalizing i with
  | nil => rfl
  | cons x xs ih =>
    cases i with
    | zero => simp at h
    | succ n =>
      simp only [List.length_cons] at h
      simp [setE, ih n (by omega)]

theorem getE_swapL_left [Inhabited T] (l : List (Element T)) (i j : Nat)
    (hi : i < l.length) (hj : j < l.length) :
    getE (swapL l i j) i = getE l j := by
  unfold swapL
  rcases eq_or_ne i j with rfl | hij
  · rw [getE_setE_eq _ _ _ (by simpa using hi)]
  · rw [getE_setE_ne _ _ _ _ hij, getE_setE_eq _ _ _ hi]

theorem getE_swapL_right [Inhabited T] (l : List (Element T)) (i j : Nat)
    (_hi : i < l.length) (hj : j < l.length) :
    getE (swapL l i j) j = getE l i := by
  unfold swapL
  rw [getE_setE_eq _ _ _ (by simpa using hj)]

theorem getE_swapL_other [Inhabited T] (l : List (Element T)) (i j k : Nat)
    (hki : k ≠ i) (hkj : k ≠ j) :
    getE (swapL l i j) k = getE l k := by
  unfold swapL
  rw [getE_setE_ne _ _ _ _ hkj, getE_setE_ne _ _ _ _ hki]

theorem setE_getE_self [Inhabited T] (l : List (Element T)) (i : Nat) :
    setE l i (getE l i) = l := by
  induction l generalizing i with
  | nil => rfl
  | cons x xs ih =>
    cases i with
    | zero => rfl
    | succ n => simp [setE, getE, ih]

theorem setE_setE_same (l : List (Element T)) (i : Nat) (a b : Element T) :
    setE (setE l i a) i b = setE l i b := by
  induction l generalizing i with
  | nil => rfl
  | cons x xs ih =>
    cases i with
    | zero => rfl
    | succ n => simp [setE, ih]

theorem getE_cons_perm [Inhabited T] (xs : List (Element T)) (m : Nat) (x : Element T)
    (h : m < xs.length) : (getE xs m :: setE xs m x).Perm (x :: xs) := by
  induction xs generalizing m with
  | nil => simp at h
  | cons y ys ih =>
    cases m with
    | zero =>
      simpa [getE, setE] using List.Perm.swap x y ys
    | succ n =>
      simp only [List.length_cons] at h
      have h1 : (getE ys n :: y :: setE ys n x).Perm (y :: getE ys n :: setE ys n x) :=
        List.Perm.swap _ _ _
      have h2 : (y :: getE ys n :: setE ys n x).Perm (y :: x :: ys) :=
        List.Perm.cons y (ih n (by omega))
      have h3 : (y :: x :: ys).Perm (x :: y :: ys) := List.Perm.swap _ _ _
      simpa [getE, setE] using (h1.trans h2).trans h3

theorem swapL_perm [Inhabited T] (l : List (Element T)) (i j : Nat)
    (hi : i < l.length) (hj : j < l.length) : (swapL l i j).Perm l := by
  induction l generalizing i j with
  | nil => simp at hi
  | cons x xs ih =>
    cases i with
    | zero =>
      cases j with
      | zero => simp [swapL, setE_setE_same, setE_getE_self]
      | succ m =>
        simp only [List.length_cons] at hj
        have hm : m < xs.length := by omega
        show (setE (setE (x :: xs) 0 (getE (x :: xs) (m + 1))) (m + 1)
          (getE (x :: xs) 0)).Perm (x :: xs)
        simp only [getE, setE]
        exact getE_cons_perm xs m x hm
    | succ n =>
      cases j with
      | zero =>
        simp only [List.length_cons] at hi
        have hn : n < xs.length := by omega
        show (setE (setE (x :: xs) (n + 1) (getE (x :: xs) 0)) 0
          (getE (x :: xs) (n + 1))).Perm (x :: xs)
        simp only [getE, setE]
        exact getE_cons_perm xs n x hn
      | succ m =>
        simp only [List.length_cons] at hi hj
        have : swapL (x :: xs) (n + 1) (m + 1) = x :: swapL xs n m := by
          simp [swapL, getE, setE]
        rw [this]
        exact List.Perm.cons x (ih n m (by omega) (by omega))

section OpsLemmas

variable [Inhabited T]

theorem siftUpGo_fuel_irrel (fuel fuel' : Nat) (q : List (Element T)) (index : Nat)
    (h : index < fuel) (h' : index < fuel') :
    siftUpGo fuel q index = siftUpGo fuel' q index := by
  induction fuel generalizing fuel' q index with
  | zero => omega
  | succ f ih =>
    cases fuel' with
    | zero => omega
    | succ f' =>
      simp only [siftUpGo]
      split
      · rfl
      · rename_i hcond
        have hne : (index - 1) / 2 ≠ index := fun hh => hcond (Or.inl hh)
        exact ih f' _ _ (by omega) (by omega)

theorem pickChild_gt (q : List (Element T)) (i length : Nat) :
    i < pickChild q i length := by
  unfold pickChild; split <;> omega

theorem pickChild_lt (q : List (Element T)) (i length : Nat)
    (h : ¬ length ≤ 2 * i + 1) : pickChild q i length < length := by
  unfold pickChild; split <;> omega

theorem siftDownGo_base (fuel : Nat) (q : List (Element T)) (i length : Nat)
    (h : length ≤ 2 * i + 1) : siftDownGo fuel q i length = q := by
  cases fuel with
  | zero => rfl
  | succ f => simp [siftDownGo, h]

theorem siftDownGo_fuel_irrel (fuel fuel' : Nat) (q : List (Element T)) (i length : Nat)
    (h : length - i ≤ fuel + 1) (h' : length - i ≤ fuel' + 1) :
    siftDownGo fuel q i length = siftDownGo fuel' q i length := by
  induction fuel generalizing fuel' q i with
  | zero =>
    have hbase : length ≤ 2 * i + 1 := by omega
    rw [siftDownGo_base _ _ _ _ hbase, siftDownGo_base _ _ _ _ hbase]
  | succ f ih =>
    cases fuel' with
    | zero =>
      have hbase : length ≤ 2 * i + 1 := by omega
      rw [siftDownGo_base _ _ _ _ hbase, siftDownGo_base _ _ _ _ hbase]
    | succ f' =>
      simp only [siftDownGo]
      split
      · rfl
      · split
        · rename_i hlen _
          have h1 := pickChild_gt q i length
          have h2 := pickChild_lt q i length hlen
          exact ih f' _ _ (by omega) (by omega)
        · rfl

end OpsLemmas

theorem isHeapFrom_iff_bounded [Inhabited T] (q : List (Element T)) (n k : Nat) :
    IsHeapFrom q n k ↔
      ∀ p, p < n → ∀ c, c < n → (k ≤ p → (c = 2 * p + 1 ∨ c = 2 * p + 2) → prio q c ≤ prio q p) := by
  constructor
  · intro h p _ c hc hk hch
    exact h p c hk hch hc
  · intro h p c hk hch hc
    have hp : p < n := by omega
    exact h p hp c hc hk hch

@[simp]
theorem desc_self (i : Nat) : desc i i = true := by
  rw [desc]
  simp

theorem desc_of_lt {i k : Nat} (h : k < i) : desc i k = false := by
  rw [desc]
  simp [h]

theorem desc_step {i k : Nat} (h1 : ¬ k < i) (h2 : k ≠ i) :
    desc i k = desc i ((k - 1) / 2) := by
  conv_lhs => rw [desc]
  simp [h1, h2]

theorem desc_le {i : Nat} : ∀ {k : Nat}, desc i k = true → i ≤ k := by
  intro k
  induction k using Nat.strong_induction_on with
  | _ k ih =>
    intro h
    by_cases h1 : k < i
    · rw [desc_of_lt h1] at h
      exact absurd h (by simp)
    · omega

theorem desc_child_left {i p : Nat} (h : desc i p = true) :
    desc i (2 * p + 1) = true := by
  have hip : i ≤ p := desc_le h
  rw [desc_step (by omega) (by omega)]
  have h3 : (2 * p + 1 - 1) / 2 = p := by omega
  rw [h3]
  exact h

theorem desc_child_right {i p : Nat} (h : desc i p = true) :
    desc i (2 * p + 2) = true := by
  have hip : i ≤ p := desc_le h
  rw [desc_step (by omega) (by omega)]
  have h3 : (2 * p + 2 - 1) / 2 = p := by omega
  rw [h3]
  exact h

theorem desc_trans {i j : Nat} : ∀ {k : Nat}, desc i j = true → desc j k = true →
    desc i k = true := by
  intro k
  induction k using Nat.strong_induction_on with
  | _ k ih =>
    intro hij hjk
    by_cases hklt : k < j
    · rw [desc_of_lt hklt] at hjk
      exact absurd hjk (by simp)
    · by_cases hkeq : k = j
      · subst hkeq
        exact hij
      · rw [desc_step hklt hkeq] at hjk
        have hijle : i ≤ j := desc_le hij
        have hj : desc i ((k - 1) / 2) = true := ih ((k - 1) / 2) (by omega) hij hjk
        have hik : i ≤ (k - 1) / 2 := desc_le hj
        rcases eq_or_ne k i with rfl | hne
        · simp
        · rw [desc_step (by omega) hne]
          exact hj

/-- An index beyond `j` whose parent is strictly below `j` is never in
`j`'s subtree. -/
theorem desc_false_of_child {j p c : Nat} (hpj : p < j) (hjc : j < c)
    (hch : c = 2 * p + 1 ∨ c = 2 * p + 2) : desc j c = false := by
  by_contra h
  rw [Bool.not_eq_false] at h
  rw [desc] at h
  have h1 : ¬ (c < j) := by omega
  have h2 : c ≠ j := by omega
  simp [h1, h2] at h
  have hpar : (c - 1) / 2 = p := by omega
  rw [hpar] at h
  exact absurd (desc_le h) (by omega)

section SiftLemmas

variable [Inhabited T]

theorem pickChild_cases (q : List (Element T)) (i length : Nat) :
    pickChild q i length = 2 * i + 1 ∨ pickChild q i length = 2 * i + 2 := by
  unfold pickChild; split
  · exact Or.inr rfl
  · exact Or.inl rfl

theorem pickChild_ge_left (q : List (Element T)) (i length : Nat) :
    prio q (2 * i + 1) ≤ prio q (pickChild q i length) := by
  unfold pickChild; split
  · rename_i h
    exact le_of_lt h.2
  · exact le_refl _

theorem pickChild_ge_right (q : List (Element T)) (i length : Nat)
    (h : 2 * i + 2 < length) :
    prio q (2 * i + 2) ≤ prio q (pickChild q i length) := by
  unfold pickChild; split
  · exact le_refl _
  · rename_i hc
    rw [not_and] at hc
    exact le_of_not_lt (hc h)

theorem prio_swapL_left (l : List (Element T)) (i j : Nat)
    (hi : i < l.length) (hj : j < l.length) : prio (swapL l i j) i = prio l j := by
  unfold prio
  rw [getE_swapL_left l i j hi hj]

theorem prio_swapL_right (l : List (Element T)) (i j : Nat)
    (hi : i < l.length) (hj : j < l.length) : prio (swapL l i j) j = prio l i := by
  unfold prio
  rw [getE_swapL_right l i j hi hj]

theorem prio_swapL_other (l : List (Element T)) (i j k : Nat)
    (hki : k ≠ i) (hkj : k ≠ j) : prio (swapL l i j) k = prio l k := by
  unfold prio
  rw [getE_swapL_other l i j k hki hkj]

theorem prio_congr {l l' : List (Element T)} {k k' : Nat}
    (h : getE l k = getE l' k') : prio l k = prio l' k' := by
  unfold prio
  rw [h]

/-- Main correctness of `siftDown` at index `i` over range `[0, n)` on the
full container (`n = q.length`, as at every call site in the source): if
the heap property already holds for all parents above `i`, the result
satisfies it for all parents from `i` on; moreover only indices in the
subtree of `i` are touched, the value arriving at `i` is the old value of
`i` or of one of its children, and the contents are a permutation. -/
theorem siftDownGo_spec :
    ∀ (fuel : Nat) (q : List (Element T)) (i n : Nat),
      n = q.length → n - i ≤ fuel + 1 → IsHeapFrom q n (i + 1) →
      (siftDownGo fuel q i n).length = q.length ∧
      (∀ k, desc i k = false → getE (siftDownGo fuel q i n) k = getE q k) ∧
      IsHeapFrom (siftDownGo fuel q i n) n i ∧
      (prio (siftDownGo fuel q i n) i ≤ prio q i ∨
        (2 * i + 1 < n ∧ prio (siftDownGo fuel q i n) i = prio q (2 * i + 1)) ∨
        (2 * i + 2 < n ∧ prio (siftDownGo fuel q i n) i = prio q (2 * i + 2))) ∧
      (siftDownGo fuel q i n).Perm q := by
  intro fuel
  induction fuel with
  | zero =>
    intro q i n hn hf hh
    refine ⟨rfl, fun k _ => rfl, ?_, Or.inl (le_refl _), List.Perm.refl _⟩
    intro p c hp hch hcn
    rcases Nat.eq_or_lt_of_le hp with rfl | hlt
    · omega
    · exact hh p c hlt hch hcn
  | succ fuel ih =>
    intro q i n hn hf hh
    by_cases h1 : n ≤ 2 * i + 1
    · rw [siftDownGo_base (fuel + 1) q i n h1]
      refine ⟨rfl, fun k _ => rfl, ?_, Or.inl (le_refl _), List.Perm.refl _⟩
      intro p c hp hch hcn
      rcases Nat.eq_or_lt_of_le hp with rfl | hlt
      · omega
      · exact hh p c hlt hch hcn
    · have hij : i < pickChild q i n := pickChild_gt q i n
      have hjn : pickChild q i n < n := pickChild_lt q i n h1
      have hjcases := pickChild_cases q i n
      by_cases h2 : prio q i < prio q (pickChild q i n)
      · simp only [siftDownGo, if_neg h1, if_pos h2]
        set j := pickChild q i n with hjdef
        set q' := swapL q i j with hq'def
        have hlen' : q'.length = q.length := length_swapL q i j
        have hn' : n = q'.length := by rw [hlen']; exact hn
        have hf' : n - j ≤ fuel + 1 := by omega
        have hin : i < q.length := by omega
        have hjln : j < q.length := by omega
        have hh' : IsHeapFrom q' n (j + 1) := by
          intro p c hp hch hcn
          have h3 : prio q' p = prio q p :=
            prio_swapL_other q i j p (by omega) (by omega)
          have h4 : prio q' c = prio q c :=
            prio_swapL_other q i j c (by omega) (by omega)
          rw [h3, h4]
          exact hh p c (by omega) hch hcn
        obtain ⟨rlen, runtouched, rheap, rprio, rperm⟩ := ih q' j n hn' hf' hh'
        have hdescij : desc i j = true := by
          rcases hjcases with hc | hc <;> rw [hc]
          · exact desc_child_left (desc_self i)
          · exact desc_child_right (desc_self i)
        have hdescji : desc j i = false := desc_of_lt hij
        have hri : prio (siftDownGo fuel q' j n) i = prio q j := by
          rw [prio_congr (runtouched i hdescji)]
          exact prio_swapL_left q i j hin hjln
        refine ⟨rlen.trans hlen', ?_, ?_, ?_, rperm.trans (swapL_perm q i j hin hjln)⟩
        · -- untouched outside the subtree of i
          intro k hk
          have hki : k ≠ i := by
            intro h
            rw [h, desc_self] at hk
            exact absurd hk (by simp)
          have hkj : k ≠ j := by
            intro h
            rw [h, hdescij] at hk
            exact absurd hk (by simp)
          have hjk : desc j k = false := by
            by_contra hc
            rw [Bool.not_eq_false] at hc
            rw [desc_trans hdescij hc] at hk
            exact absurd hk (by simp)
          rw [runtouched k hjk]
          exact getE_swapL_other q i j k hki hkj
        · -- heap property from i
          intro p c hp hch hcn
          rcases Nat.eq_or_lt_of_le hp with rfl | hplt
          · -- parent is i itself
            rw [hri]
            by_cases hcj : c = j
            · subst hcj
              rcases rprio with hA | ⟨hBn, hB⟩ | ⟨hCn, hC⟩
              · have : prio q' j = prio q i := prio_swapL_right q i j hin hjln
                rw [this] at hA
                exact hA.trans (le_of_lt h2)
              · rw [hB, prio_swapL_other q i j (2 * j + 1) (by omega) (by omega)]
                exact hh j (2 * j + 1) (by omega) (Or.inl rfl) hBn
              · rw [hC, prio_swapL_other q i j (2 * j + 2) (by omega) (by omega)]
                exact hh j (2 * j + 2) (by omega) (Or.inr rfl) hCn
            · -- sibling child of i
              have hdjc : desc j c = false := by
                rcases Nat.lt_or_ge c j with hlt | hge
                · exact desc_of_lt hlt
                · have : j < c := by omega
                  exact desc_false_of_child hij this hch
              have hrc : prio (siftDownGo fuel q' j n) c = prio q c := by
                rw [prio_congr (runtouched c hdjc)]
                exact prio_swapL_other q i j c (by omega) hcj
              rw [hrc]
              rcases hch with hc1 | hc2
              · rw [hc1]
                exact pickChild_ge_left q i n
              · rw [hc2]
                exact pickChild_ge_right q i n (by omega)
          · by_cases hpj : j ≤ p
            · exact rheap p c hpj hch hcn
            · have hplj : p < j := by omega
              have hcgt : j < c := by omega
              have hdp : desc j p = false := desc_of_lt hplj
              have hdc : desc j c = false := desc_false_of_child hplj hcgt hch
              have e1 : prio (siftDownGo fuel q' j n) p = prio q p := by
                rw [prio_congr (runtouched p hdp)]
                exact prio_swapL_other q i j p (by omega) (by omega)
              have e2 : prio (siftDownGo fuel q' j n) c = prio q c := by
                rw [prio_congr (runtouched c hdc)]
                exact prio_swapL_other q i j c (by omega) (by omega)
              rw [e1, e2]
              exact hh p c (by omega) hch hcn
        · -- the value at i comes from a child of i
          rcases hjcases with hc | hc
          · refine Or.inr (Or.inl ⟨by omega, ?_⟩)
            rw [hri, hc]
          · refine Or.inr (Or.inr ⟨by omega, ?_⟩)
            rw [hri, hc]
      · have hstep : siftDownGo (fuel + 1) q i n = q := by
          simp only [siftDownGo, if_neg h1, if_neg h2]
        rw [hstep]
        refine ⟨rfl, fun k _ => rfl, ?_, Or.inl (le_refl _), List.Perm.refl _⟩
        intro p c hp hch hcn
        rcases Nat.eq_or_lt_of_le hp with rfl | hplt
        · rcases hch with hc1 | hc2
          · rw [hc1]
            exact (pickChild_ge_left q i n).trans (le_of_not_lt h2)
          · rw [hc2]
            exact (pickChild_ge_right q i n (by omega)).trans (le_of_not_lt h2)
        · exact hh p c hplt hch hcn

theorem siftDown_spec (q : List (Element T)) (i n : Nat)
    (hn : n = q.length) (hh : IsHeapFrom q n (i + 1)) :
    (siftDown q i n).length = q.length ∧
    IsHeapFrom (siftDown q i n) n i ∧
    (siftDown q i n).Perm q := by
  obtain ⟨h1, _, h3, _, h5⟩ := siftDownGo_spec (n - i) q i n hn (by omega) hh
  exact ⟨h1, h3, h5⟩

theorem initAux_spec (n : Nat) :
    ∀ (c : Nat) (q : List (Element T)), n = q.length → IsHeapFrom q n c →
      (initAux n q c).length = q.length ∧
      IsHeapFrom (initAux n q c) n 0 ∧
      (initAux n q c).Perm q := by
  intro c
  induction c with
  | zero =>
    intro q hn hh
    exact ⟨rfl, hh, List.Perm.refl _⟩
  | succ c ih =>
    intro q hn hh
    obtain ⟨l1, h1, p1⟩ := siftDown_spec q c n hn hh
    obtain ⟨l2, h2, p2⟩ := ih (siftDown q c n) (by omega) h1
    exact ⟨l2.trans l1, h2, p2.trans p1⟩

theorem heapInit_spec (q : List (Element T)) :
    (heapInit q).length = q.length ∧ IsHeap (heapInit q) ∧ (heapInit q).Perm q := by
  have hvac : IsHeapFrom q q.length (q.length / 2) := by
    intro p c hp hch hcn
    omega
  obtain ⟨l1, h1, p1⟩ := initAux_spec q.length (q.length / 2) q rfl hvac
  refine ⟨l1, ?_, p1⟩
  unfold IsHeap heapInit
  rw [l1]
  exact h1

theorem fromList_spec (elements : List (Element T)) :
    (fromList elements).length = elements.length ∧
    IsHeap (fromList elements) ∧ (fromList elements).Perm elements :=
  heapInit_spec elements

theorem fromFunc_spec (items : List T) (priorityFunc : T → Int) :
    IsHeap (fromFunc items priorityFunc) ∧
    (fromFunc items priorityFunc).Perm
      (items.map fun item => Element.mk item (priorityFunc item)) := by
  obtain ⟨_, h1, h2⟩ := heapInit_spec (items.map fun item => Element.mk item (priorityFunc item))
  exact ⟨h1, h2⟩

theorem siftUpGo_spec :
    ∀ (fuel : Nat) (q : List (Element T)) (x n : Nat),
      n = q.length → x < fuel → x < n → UpInv q n x →
      (siftUpGo fuel q x).length = q.length ∧
      IsHeapFrom (siftUpGo fuel q x) n 0 ∧
      (siftUpGo fuel q x).Perm q := by
  intro fuel
  induction fuel with
  | zero =>
    intro q x n _ hfx
    omega
  | succ fuel ih =>
    intro q x n hn hfx hxn hinv
    by_cases hc : (x - 1) / 2 = x ∨ prio q x < prio q ((x - 1) / 2)
    · have hstep : siftUpGo (fuel + 1) q x = q := by
        simp only [siftUpGo, if_pos hc]
      rw [hstep]
      refine ⟨rfl, ?_, List.Perm.refl _⟩
      intro p c _ hch hcn
      by_cases hcx : c = x
      · subst hcx
        have hp : p = (c - 1) / 2 := by omega
        rcases hc with h0 | hlt
        · omega
        · rw [hp]
          exact le_of_lt hlt
      · exact hinv.1 p c hch hcn hcx
    · simp only [siftUpGo, if_neg hc]
      rw [not_or] at hc
      obtain ⟨hne, hge⟩ := hc
      have hx0 : 0 < x := by omega
      have hp0 : (x - 1) / 2 < x := by omega
      have hp0n : (x - 1) / 2 < n := by omega
      have hswlen : (swapL q ((x - 1) / 2) x).length = q.length := length_swapL q _ x
      have hinv' : UpInv (swapL q ((x - 1) / 2) x) n ((x - 1) / 2) := by
        constructor
        · intro p c hch hcn hcp0
          by_cases hcx : c = x
          · subst hcx
            have hpp : p = (c - 1) / 2 := by omega
            rw [hpp, prio_swapL_right q _ c (by omega) (by omega),
              prio_swapL_left q _ c (by omega) (by omega)]
            exact le_of_not_lt hge
          · have hval_c : prio (swapL q ((x - 1) / 2) x) c = prio q c :=
              prio_swapL_other q _ x c hcp0 hcx
            by_cases hpx : p = x
            · rw [hpx] at hch ⊢
              rw [hval_c, prio_swapL_right q _ x (by omega) (by omega)]
              exact hinv.2 c hch hcn hx0
            · by_cases hpp0 : p = (x - 1) / 2
              · rw [hpp0] at hch ⊢
                rw [hval_c, prio_swapL_left q _ x (by omega) (by omega)]
                exact (hinv.1 ((x - 1) / 2) c hch hcn hcx).trans (le_of_not_lt hge)
              · rw [hval_c, prio_swapL_other q _ x p hpp0 hpx]
                exact hinv.1 p c hch hcn hcx
        · intro c hch hcn hpos
          have hgp : ((x - 1) / 2 - 1) / 2 < (x - 1) / 2 := by omega
          have hgpx : ((x - 1) / 2 - 1) / 2 ≠ x := by omega
          have hgpp : ((x - 1) / 2 - 1) / 2 ≠ (x - 1) / 2 := by omega
          have hparent_pair : prio q ((x - 1) / 2) ≤ prio q (((x - 1) / 2 - 1) / 2) := by
            apply hinv.1 (((x - 1) / 2 - 1) / 2) ((x - 1) / 2) (by omega) hp0n (by omega)
          rw [prio_swapL_other q _ x _ hgpp hgpx]
          by_cases hcx : c = x
          · subst hcx
            rw [prio_swapL_right q _ c (by omega) (by omega)]
            exact hparent_pair
          · have hcp0 : c ≠ (x - 1) / 2 := by omega
            rw [prio_swapL_other q _ x c hcp0 hcx]
            exact (hinv.1 ((x - 1) / 2) c hch hcn hcx).trans hparent_pair
      obtain ⟨l1, h1, p1⟩ := ih (swapL q ((x - 1) / 2) x) ((x - 1) / 2) n
        (by omega) (by omega) (by omega) hinv'
      exact ⟨l1.trans hswlen, h1, p1.trans (swapL_perm q _ x (by omega) (by omega))⟩

theorem getE_append_left (q l : List (Element T)) (k : Nat) (h : k < q.length) :
    getE (q ++ l) k = getE q k := by
  induction q generalizing k with
  | nil => simp at h
  | cons x xs ih =>
    cases k with
    | zero => rfl
    | succ m =>
      simp only [List.length_cons] at h
      exact ih m (by omega)

theorem push_spec (q : List (Element T)) (it : T) (pr : Int) (h : IsHeap q) :
    (push q it pr).length = q.length + 1 ∧
    IsHeap (push q it pr) ∧
    (push q it pr).Perm (q ++ [Element.mk it pr]) := by
  have hlen1 : (q ++ [Element.mk it pr]).length = q.length + 1 := by simp
  have hinv : UpInv (q ++ [Element.mk it pr]) (q.length + 1) q.length := by
    constructor
    · intro p c hch hcn hcx
      have hcq : c < q.length := by omega
      have hpq : p < q.length := by omega
      have e1 : prio (q ++ [Element.mk it pr]) c = prio q c := by
        unfold prio
        rw [getE_append_left q _ c hcq]
      have e2 : prio (q ++ [Element.mk it pr]) p = prio q p := by
        unfold prio
        rw [getE_append_left q _ p hpq]
      rw [e1, e2]
      exact h p c (by omega) hch hcq
    · intro c hch hcn _
      omega
  unfold push siftUp
  rw [hlen1]
  obtain ⟨l1, h1, p1⟩ := siftUpGo_spec (q.length + 1 - 1 + 1) (q ++ [Element.mk it pr])
    (q.length + 1 - 1) (q.length + 1) (by simp) (by omega) (by omega) (by simpa using hinv)
  refine ⟨by rw [l1, hlen1], ?_, p1⟩
  unfold IsHeap
  rw [l1, hlen1]
  exact h1

theorem siftDownGo_length (fuel : Nat) :
    ∀ (q : List (Element T)) (i n : Nat), (siftDownGo fuel q i n).length = q.length := by
  induction fuel with
  | zero => intro q i n; rfl
  | succ fuel ih =>
    intro q i n
    simp only [siftDownGo]
    split
    · rfl
    · split
      · rw [ih, length_swapL]
      · rfl

theorem siftDown_length (q : List (Element T)) (i n : Nat) :
    (siftDown q i n).length = q.length :=
  siftDownGo_length (n - i) q i n

theorem getE_take (l : List (Element T)) (n k : Nat) (h : k < n) :
    getE (l.take n) k = getE l k := by
  induction l generalizing n k with
  | nil => simp [List.take_nil]
  | cons x xs ih =>
    cases n with
    | zero => omega
    | succ m =>
      cases k with
      | zero => rfl
      | succ j => exact ih m j (by omega)

theorem drop_eq_getE_last (l : List (Element T)) (n : Nat) (h : l.length = n + 1) :
    l.drop n = [getE l n] := by
  induction l generalizing n with
  | nil => simp at h
  | cons x xs ih =>
    cases n with
    | zero =>
      simp only [List.length_cons] at h
      have : xs = [] := List.length_eq_zero.mp (by omega)
      simp [this, getE]
    | succ m =>
      simp only [List.length_cons] at h
      exact ih m (by omega)

theorem cons_take_perm (l : List (Element T)) (n : Nat) (h : l.length = n + 1) :
    (getE l n :: l.take n).Perm l := by
  have h1 : l.take n ++ l.drop n = l := List.take_append_drop n l
  rw [drop_eq_getE_last l n h] at h1
  have h2 : (l.take n ++ [getE l n]).Perm (getE l n :: (l.take n ++ [])) :=
    List.perm_middle
  rw [List.append_nil] at h2
  exact (h2.symm.trans (by rw [h1])).symm.symm

/-- Every element's priority is bounded by the root's: heap order implies
the maximum sits at index 0. -/
theorem prio_le_root (q : List (Element T)) (hq : IsHeap q) :
    ∀ k, k < q.length → prio q k ≤ prio q 0 := by
  intro k
  induction k using Nat.strong_induction_on with
  | _ k ih =>
    intro hk
    rcases Nat.eq_zero_or_pos k with rfl | hpos
    · exact le_refl _
    · have hch : k = 2 * ((k - 1) / 2) + 1 ∨ k = 2 * ((k - 1) / 2) + 2 := by omega
      have h1 : prio q k ≤ prio q ((k - 1) / 2) :=
        hq ((k - 1) / 2) k (Nat.zero_le _) hch hk
      exact h1.trans (ih ((k - 1) / 2) (by omega) (by omega))

/-- Full correctness of a non-empty `Pop`: no error, the returned item is
the root's, the remaining container is one shorter, still a heap, and
root-plus-rest is a permutation of the original contents. -/
theorem pop_spec (q : List (Element T)) (hq : IsHeap q) (hne : q.length ≠ 0) :
    (pop q).2.2 = none ∧
    (pop q).1 = (getE q 0).item ∧
    (pop q).2.1.length = q.length - 1 ∧
    IsHeap (pop q).2.1 ∧
    (getE q 0 :: (pop q).2.1).Perm q := by
  have h0 : 0 < q.length := by omega
  have hn : q.length - 1 < q.length := by omega
  have hq1len : (swapL q 0 (q.length - 1)).length = q.length := length_swapL q 0 _
  have hq2len : ((swapL q 0 (q.length - 1)).take (q.length - 1)).length = q.length - 1 := by
    rw [List.length_take, hq1len]
    omega
  have hroot : getE (swapL q 0 (q.length - 1)) (q.length - 1) = getE q 0 :=
    getE_swapL_right q 0 (q.length - 1) h0 hn
  have hheap1 : IsHeapFrom ((swapL q 0 (q.length - 1)).take (q.length - 1))
      (q.length - 1) 1 := by
    intro p c hp hch hcn
    have hpn : p < q.length - 1 := by omega
    have e1 : prio ((swapL q 0 (q.length - 1)).take (q.length - 1)) p = prio q p := by
      apply prio_congr
      rw [getE_take _ _ _ hpn, getE_swapL_other q 0 _ p (by omega) (by omega)]
    have e2 : prio ((swapL q 0 (q.length - 1)).take (q.length - 1)) c = prio q c := by
      apply prio_congr
      rw [getE_take _ _ _ hcn, getE_swapL_other q 0 _ c (by omega) (by omega)]
    rw [e1, e2]
    exact hq p c (Nat.zero_le _) hch (by omega)
  obtain ⟨l3, h3, p3⟩ := siftDown_spec ((swapL q 0 (q.length - 1)).take (q.length - 1))
    0 (q.length - 1) hq2len.symm (by simpa using hheap1)
  have hpop : pop q = ((getE q 0).item,
      siftDown ((swapL q 0 (q.length - 1)).take (q.length - 1)) 0 (q.length - 1), none) := by
    simp only [pop, if_neg hne, hroot]
  rw [hpop]
  refine ⟨rfl, rfl, ?_, ?_, ?_⟩
  · rw [l3, hq2len]
  · unfold IsHeap
    rw [l3, hq2len]
    exact h3
  · have hperm1 : (getE q 0 ::
        siftDown ((swapL q 0 (q.length - 1)).take (q.length - 1)) 0 (q.length - 1)).Perm
        (getE q 0 :: (swapL q 0 (q.length - 1)).take (q.length - 1)) :=
      List.Perm.cons _ p3
    have hperm2 : (getE q 0 :: (swapL q 0 (q.length - 1)).take (q.length - 1)).Perm
        (swapL q 0 (q.length - 1)) := by
      rw [← hroot]
      exact cons_take_perm (swapL q 0 (q.length - 1)) (q.length - 1) (by omega)
    exact (hperm1.trans hperm2).trans (swapL_perm q 0 (q.length - 1) h0 hn)

/-- `popSeq` is literally iterated `pop`: on a non-empty queue its head is
the element whose item `pop` returns and its tail is `popSeq` of the
container `pop` leaves. -/
theorem popSeq_step (q : List (Element T)) (h : q.length ≠ 0) :
    popSeq q = getE q 0 :: popSeq (pop q).2.1 ∧ (pop q).1 = (getE q 0).item := by
  obtain ⟨m, hm⟩ : ∃ m, q.length = m + 1 := ⟨q.length - 1, by omega⟩
  have hroot : getE (swapL q 0 (q.length - 1)) (q.length - 1) = getE q 0 :=
    getE_swapL_right q 0 (q.length - 1) (by omega) (by omega)
  have hnextlen :
      (siftDown ((swapL q 0 (q.length - 1)).take (q.length - 1)) 0 (q.length - 1)).length
        = m := by
    rw [siftDown_length, List.length_take, length_swapL]
    omega
  constructor
  · show popSeqGo q.length q = _
    conv_lhs => rw [hm]
    rw [popSeqGo, if_neg h, hroot]
    simp only [pop, if_neg h]
    show _ = getE q 0 :: popSeqGo _ _
    rw [hnextlen]
  · simp only [pop, if_neg h, hroot]

theorem getE_of_mem {l : List (Element T)} {y : Element T} (h : y ∈ l) :
    ∃ k, k < l.length ∧ getE l k = y := by
  induction l with
  | nil => simp at h
  | cons x xs ih =>
    rcases List.mem_cons.mp h with rfl | hmem
    · exact ⟨0, by simp, rfl⟩
    · obtain ⟨k, hk, hke⟩ := ih hmem
      exact ⟨k + 1, by simpa using hk, hke⟩

/-- Popping a heap until empty yields its elements in non-increasing
priority order, and the popped sequence is a permutation of the
contents. -/
theorem popSeqGo_spec :
    ∀ (fuel : Nat) (q : List (Element T)), q.length ≤ fuel → IsHeap q →
      ((popSeqGo fuel q).map Element.priority).Sorted (· ≥ ·) ∧
      (popSeqGo fuel q).Perm q := by
  intro fuel
  induction fuel with
  | zero =>
    intro q hlen _
    have : q = [] := List.length_eq_zero.mp (by omega)
    subst this
    exact ⟨List.sorted_nil, List.Perm.refl _⟩
  | succ fuel ih =>
    intro q hlen hq
    by_cases h : q.length = 0
    · have : q = [] := List.length_eq_zero.mp h
      subst this
      simp only [popSeqGo, if_pos rfl]
      exact ⟨List.sorted_nil, List.Perm.refl _⟩
    · obtain ⟨herr, hitem, hlen', hheap', hperm'⟩ := pop_spec q hq h
      have hpopeq : (pop q).2.1 =
          siftDown ((swapL q 0 (q.length - 1)).take (q.length - 1)) 0 (q.length - 1) := by
        simp only [pop, if_neg h]
      have hroot : getE (swapL q 0 (q.length - 1)) (q.length - 1) = getE q 0 :=
        getE_swapL_right q 0 (q.length - 1) (by omega) (by omega)
      obtain ⟨hsorted, hperm⟩ := ih (pop q).2.1 (by omega) hheap'
      have hstep : popSeqGo (fuel + 1) q = getE q 0 :: popSeqGo fuel (pop q).2.1 := by
        rw [popSeqGo, if_neg h, hroot, hpopeq]
      rw [hstep]
      constructor
      · rw [List.map_cons, List.sorted_cons]
        refine ⟨?_, hsorted⟩
        intro b hb
        obtain ⟨y, hy, rfl⟩ := List.mem_map.mp hb
        have hyq : y ∈ q := hperm'.subset (List.mem_cons_of_mem _ (hperm.subset hy))
        obtain ⟨ky, hky, hkey⟩ := getE_of_mem hyq
        rw [← hkey]
        exact prio_le_root q hq ky hky
      · exact (List.Perm.cons _ hperm).trans hperm'

theorem popSeq_spec (q : List (Element T)) (hq : IsHeap q) :
    ((popSeq q).map Element.priority).Sorted (· ≥ ·) ∧ (popSeq q).Perm q :=
  popSeqGo_spec q.length q (le_refl _) hq

end SiftLemmas

section ReachableLemmas

variable [Inhabited T]

theorem reachable_isHeap (q : List (Element T)) (h : Reachable q) : IsHeap q := by
  induction h with
  | new =>
    intro p c _ _ hcn
    simp at hcn
  | fromList es => exact (fromList_spec es).2.1
  | fromFunc items f => exact (fromFunc_spec items f).1
  | push q it pr _ ih => exact (push_spec q it pr ih).2.1
  | pop q _ ih =>
    by_cases h : q.length = 0
    · have hq : (pop q).2.1 = q := by simp [Priority.pop, h]
      rw [hq]
      exact ih
    · exact (pop_spec q ih h).2.2.2.1

theorem siftUpGo_perm : ∀ (fuel : Nat) (q : List (Element T)) (x : Nat),
    x < q.length → (siftUpGo fuel q x).Perm q := by
  intro fuel
  induction fuel with
  | zero => intro q x _; exact List.Perm.refl _
  | succ fuel ih =>
    intro q x hx
    by_cases hc : (x - 1) / 2 = x ∨ prio q x < prio q ((x - 1) / 2)
    · have hstep : siftUpGo (fuel + 1) q x = q := by
        simp only [siftUpGo, if_pos hc]
      rw [hstep]
    · have hstep : siftUpGo (fuel + 1) q x =
          siftUpGo fuel (swapL q ((x - 1) / 2) x) ((x - 1) / 2) := by
        simp only [siftUpGo, if_neg hc]
      rw [not_or] at hc
      have hx0 : 0 < x := by omega
      rw [hstep]
      have h1 := ih (swapL q ((x - 1) / 2) x) ((x - 1) / 2)
        (by rw [length_swapL]; omega)
      exact h1.trans (swapL_perm q ((x - 1) / 2) x (by omega) hx)

theorem push_perm (q : List (Element T)) (it : T) (pr : Int) :
    (push q it pr).Perm (q ++ [Element.mk it pr]) := by
  unfold push siftUp
  apply siftUpGo_perm
  simp

theorem pushAll_reachable (q : List (Element T)) (l : List (Element T))
    (h : Reachable q) : Reachable (pushAll q l) := by
  induction l generalizing q with
  | nil => exact h
  | cons e rest ih => exact ih _ (Reachable.push _ _ _ h)

theorem pushAll_perm (q : List (Element T)) (l : List (Element T)) :
    (pushAll q l).Perm (q ++ l) := by
  induction l generalizing q with
  | nil => simp [pushAll]
  | cons e rest ih =>
    have h1 : pushAll q (e :: rest) = pushAll (push q e.item e.priority) rest := rfl
    rw [h1]
    have h2 := ih (push q e.item e.priority)
    have h3 : ((push q e.item e.priority) ++ rest).Perm ((q ++ [e]) ++ rest) :=
      (push_perm q e.item e.priority).append_right rest
    have h4 : (q ++ [e]) ++ rest = q ++ (e :: rest) := by simp
    rw [h4] at h3
    exact h2.trans h3

end ReachableLemmas

theorem siftUpGo_eq_amend [Inhabited T] :
    ∀ (fuel : Nat) (q : List (Element T)) (index : Nat),
      siftUpGo fuel q index = siftUpAmendGo fuel q index := by
  intro fuel
  induction fuel with
  | zero => intro q index; rfl
  | succ fuel ih =>
    intro q index
    by_cases hi : index = 0
    · subst hi
      have hc : ((0 : Nat) - 1) / 2 = 0 ∨ prio q 0 < prio q ((0 - 1) / 2) :=
        Or.inl rfl
      simp only [siftUpGo, siftUpAmendGo, if_pos hc, if_pos rfl]
      simp
    · have hne : (index - 1) / 2 ≠ index := by omega
      by_cases hlt : prio q index < prio q ((index - 1) / 2)
      · simp only [siftUpGo, siftUpAmendGo, if_pos (Or.inr hlt), if_neg hi, if_pos hlt]
      · have hc : ¬ ((index - 1) / 2 = index ∨ prio q index < prio q ((index - 1) / 2)) := by
          rw [not_or]
          exact ⟨hne, hlt⟩
        simp only [siftUpGo, siftUpAmendGo, if_neg hc, if_neg hi, if_neg hlt]
        exact ih _ _

/-- C5: after any sequence of `Push`/`Pop`/`From`/`FromFunc` calls, the
backing array satisfies the binary max-heap property: for every index `i`
whose children `2i+1`/`2i+2` are within the current length, the priority
at `i` is greater than or equal to the priority at each present child. -/
theorem claim_C5_heap_invariant {T : Type} [Inhabited T] (q : List (Element T))
    (hq : Reachable q) :
    ∀ i c, (c = 2 * i + 1 ∨ c = 2 * i + 2) → c < q.length → prio q c ≤ prio q i :=
  fun i c hch hcn => reachable_isHeap q hq i c (Nat.zero_le _) hch hcn

theorem claim_C5_witness :
    Reachable (fromList [Element.mk (0 : Nat) 1, Element.mk 1 9, Element.mk 2 4]) ∧
    (∀ i c, (c = 2 * i + 1 ∨ c = 2 * i + 2) →
      c < (fromList [Element.mk (0 : Nat) 1, Element.mk 1 9, Element.mk 2 4]).length →
      prio (fromList [Element.mk (0 : Nat) 1, Element.mk 1 9, Element.mk 2 4]) c ≤
        prio (fromList [Element.mk (0 : Nat) 1, Element.mk 1 9, Element.mk 2 4]) i) :=
  ⟨Reachable.fromList _, claim_C5_heap_invariant _ (Reachable.fromList _)⟩

/-- C6 counterexample: the claim says an element whose priority equals its
parent's is *not* moved past it.  The code's `siftUp` breaks only when the
child is strictly below the parent, so pushing two elements of equal
priority 5 puts the **second** one at the root, while the claim's strict
sift-up (`pushSpecStrict`) would leave the first at the root. -/
theorem claim_C6_counterexample :
    push (push ([] : List (Element Nat)) 0 5) 1 5 =
      [Element.mk 1 5, Element.mk 0 5] ∧
    pushSpecStrict (pushSpecStrict ([] : List (Element Nat)) 0 5) 1 5 =
      [Element.mk 0 5, Element.mk 1 5] ∧
    push (push ([] : List (Element Nat)) 0 5) 1 5 ≠
      pushSpecStrict (pushSpecStrict ([] : List (Element Nat)) 0 5) 1 5 := by
  refine ⟨by decide, by decide, by decide⟩

/-- C6 as amended: `Push` appends the element at the end of the backing
array and then sifts up, swapping and continuing from the parent's old
index whenever the new element's priority is greater than **or equal to**
the parent's, and stopping when reaching the root or when the parent's
priority **strictly** exceeds the child's (so an element whose priority
equals its parent's *is* moved past it). -/
theorem claim_C6_push_siftup {T : Type} [Inhabited T]
    (q : List (Element T)) (item : T) (priority : Int) :
    push q item priority = pushSpecAmended q item priority :=
  siftUpGo_eq_amend _ _ _

/-- C7: popping a queue built by `Push`/`From`/`FromFunc` until it is empty
yields the stored elements in non-increasing priority order; in
particular, pushing six elements with priorities `[6,1,3,4,2,5]` in any
order and popping six times returns priorities `6,5,4,3,2,1`. -/
theorem claim_C7_pop_ordering {T : Type} [Inhabited T] :
    (∀ q : List (Element T), Reachable q →
      ((popSeq q).map Element.priority).Sorted (· ≥ ·)) ∧
    (∀ es : List (Element T), (es.map Element.priority).Perm [6, 1, 3, 4, 2, 5] →
      (popSeq (pushAll [] es)).map Element.priority = [6, 5, 4, 3, 2, 1]) := by
  constructor
  · intro q hq
    exact (popSeq_spec q (reachable_isHeap q hq)).1
  · intro es hperm
    have hreach : Reachable (pushAll ([] : List (Element T)) es) :=
      pushAll_reachable _ es Reachable.new
    obtain ⟨hsorted, hpermseq⟩ := popSeq_spec _ (reachable_isHeap _ hreach)
    have hp0 : (pushAll ([] : List (Element T)) es).Perm es := by
      simpa using pushAll_perm [] es
    have hp1 : ((popSeq (pushAll ([] : List (Element T)) es)).map
        Element.priority).Perm (es.map Element.priority) :=
      (hpermseq.trans hp0).map _
    have hp2 : ((popSeq (pushAll ([] : List (Element T)) es)).map
        Element.priority).Perm [6, 5, 4, 3, 2, 1] :=
      hp1.trans (hperm.trans (by decide))
    exact List.eq_of_perm_of_sorted hp2 hsorted (by decide)

theorem claim_C7_witness :
    ((popSeq (fromList [Element.mk (0 : Nat) 3, Element.mk 1 7])).map
      Element.priority).Sorted (· ≥ ·) ∧
    (popSeq (pushAll ([] : List (Element Nat))
      [Element.mk 0 6, Element.mk 1 1, Element.mk 2 3, Element.mk 3 4,
        Element.mk 4 2, Element.mk 5 5])).map Element.priority =
      [6, 5, 4, 3, 2, 1] :=
  ⟨claim_C7_pop_ordering.1 _ (Reachable.fromList _),
    claim_C7_pop_ordering.2 _ (by decide)⟩

/-- C8: `Pop` fails exactly on a queue of zero elements; on failure it
returns the item type's zero value together with the empty-queue error and
leaves the container unchanged.  (The remaining operations `Push`, `From`,
`FromFunc`, `Size`, `Empty` return no error in their Go signatures, so
only `Pop` can fail.) -/
theorem claim_C8_pop_empty {T : Type} [Inhabited T] (q : List (Element T)) :
    ((pop q).2.2 = some "pop from empty priority queue" ↔ q.length = 0) ∧
    (q.length = 0 → (pop q).1 = (default : T) ∧ (pop q).2.1 = q) := by
  constructor
  · constructor
    · intro h
      by_contra hne
      simp [Priority.pop, hne] at h
    · intro h
      simp [Priority.pop, h]
  · intro h
    simp [Priority.pop, h]

theorem claim_C8_witness :
    (((pop ([] : List (Element Nat))).2.2 =
        some "pop from empty priority queue" ↔ ([] : List (Element Nat)).length = 0) ∧
      (([] : List (Element Nat)).length = 0 →
        (pop ([] : List (Element Nat))).1 = (default : Nat) ∧
        (pop ([] : List (Element Nat))).2.1 = [])) ∧
    (((pop [Element.mk (7 : Nat) 2]).2.2 =
        some "pop from empty priority queue" ↔ [Element.mk (7 : Nat) 2].length = 0) ∧
      ([Element.mk (7 : Nat) 2].length = 0 →
        (pop [Element.mk (7 : Nat) 2]).1 = (default : Nat) ∧
        (pop [Element.mk (7 : Nat) 2]).2.1 = [Element.mk (7 : Nat) 2])) :=
  ⟨claim_C8_pop_empty [], claim_C8_pop_empty [Element.mk (7 : Nat) 2]⟩

end Priority

/-! ## Theorems: the `dag` package -/

namespace Dag

variable {K T : Type} [DecidableEq K]

section MapLemmas

theorem lookupV_isSome_iff (vs : List (K × Vertex K T)) (k : K) :
    (lookupV vs k).isSome ↔ k ∈ keysOf vs := by
  induction vs with
  | nil => simp [lookupV, keysOf]
  | cons p rest ih =>
    by_cases h : k = p.1
    · simp [lookupV, keysOf, h]
    · simp only [lookupV, keysOf, List.map_cons, List.mem_cons]
      rw [if_neg h]
      simp only [keysOf] at ih
      rw [ih]
      constructor
      · exact Or.inr
      · rintro (hc | hc)
        · exact absurd hc h
        · exact hc

theorem lookupV_eq_some_of_mem_keys (vs : List (K × Vertex K T)) (k : K)
    (h : k ∈ keysOf vs) : ∃ v, lookupV vs k = some v := by
  have := (lookupV_isSome_iff vs k).mpr h
  cases hv : lookupV vs k with
  | none => rw [hv] at this; simp at this
  | some v => exact ⟨v, rfl⟩

theorem mem_keys_of_lookupV_eq_some {vs : List (K × Vertex K T)} {k : K}
    {v : Vertex K T} (h : lookupV vs k = some v) : k ∈ keysOf vs := by
  rw [← lookupV_isSome_iff, h]
  rfl

theorem mem_of_lookupV_eq_some {vs : List (K × Vertex K T)} {k : K}
    {v : Vertex K T} (h : lookupV vs k = some v) : (k, v) ∈ vs := by
  induction vs with
  | nil => simp [lookupV] at h
  | cons p rest ih =>
    by_cases hk : k = p.1
    · rw [lookupV, if_pos hk] at h
      obtain rfl : p.2 = v := by injection h
      have hkp : (k, p.2) = p := by rw [hk]
      rw [hkp]
      exact List.mem_cons_self _ _
    · rw [lookupV, if_neg hk] at h
      exact List.mem_cons_of_mem _ (ih h)

theorem keysOf_modifyV (vs : List (K × Vertex K T)) (k : K)
    (f : Vertex K T → Vertex K T) : keysOf (modifyV vs k f) = keysOf vs := by
  induction vs with
  | nil => rfl
  | cons p rest ih =>
    by_cases h : k = p.1
    · simp [modifyV, keysOf, h]
    · rw [modifyV, if_neg h]
      simp only [keysOf, List.map_cons]
      have hih := ih
      simp only [keysOf] at hih
      rw [hih]

theorem lookupV_modifyV_self (vs : List (K × Vertex K T)) (k : K)
    (f : Vertex K T → Vertex K T) :
    lookupV (modifyV vs k f) k = (lookupV vs k).map f := by
  induction vs with
  | nil => rfl
  | cons p rest ih =>
    by_cases h : k = p.1
    · simp [modifyV, lookupV, h]
    · simp [modifyV, lookupV, if_neg h, ih]

theorem lookupV_modifyV_other (vs : List (K × Vertex K T)) (k x : K)
    (f : Vertex K T → Vertex K T) (h : x ≠ k) :
    lookupV (modifyV vs k f) x = lookupV vs x := by
  induction vs with
  | nil => rfl
  | cons p rest ih =>
    by_cases hk : k = p.1
    · subst hk
      rw [modifyV, if_pos rfl, lookupV, lookupV, if_neg h, if_neg h]
    · rw [modifyV, if_neg hk]
      by_cases hx : x = p.1
      · rw [lookupV, if_pos hx, lookupV, if_pos hx]
      · rw [lookupV, if_neg hx, lookupV, if_neg hx]
        exact ih

theorem modifyV_id (vs : List (K × Vertex K T)) (k : K)
    (f : Vertex K T → Vertex K T)
    (h : ∀ v, lookupV vs k = some v → f v = v) : modifyV vs k f = vs := by
  induction vs with
  | nil => rfl
  | cons p rest ih =>
    by_cases hk : k = p.1
    · rw [modifyV, if_pos hk]
      have := h p.2 (by rw [lookupV, if_pos hk])
      rw [this]
    · rw [modifyV, if_neg hk]
      rw [ih fun v hv => h v (by rw [lookupV, if_neg hk]; exact hv)]

theorem lookupV_append_some {vs : List (K × Vertex K T)} {k : K} {v : Vertex K T}
    (rest : List (K × Vertex K T)) (h : lookupV vs k = some v) :
    lookupV (vs ++ rest) k = some v := by
  induction vs with
  | nil => simp [lookupV] at h
  | cons p tail ih =>
    by_cases hk : k = p.1
    · rw [lookupV, if_pos hk] at h
      rw [List.cons_append, lookupV, if_pos hk]
      exact h
    · rw [lookupV, if_neg hk] at h
      rw [List.cons_append, lookupV, if_neg hk]
      exact ih h

theorem lookupV_append_none {vs : List (K × Vertex K T)} {k : K}
    (rest : List (K × Vertex K T)) (h : lookupV vs k = none) :
    lookupV (vs ++ rest) k = lookupV rest k := by
  induction vs with
  | nil => rfl
  | cons p tail ih =>
    by_cases hk : k = p.1
    · rw [lookupV, if_pos hk] at h
      simp at h
    · rw [lookupV, if_neg hk] at h
      rw [List.cons_append, lookupV, if_neg hk]
      exact ih h

theorem setInsert_nodup {l : List K} (k : K) (h : l.Nodup) :
    (setInsert l k).Nodup := by
  unfold setInsert
  split
  · exact h
  · rename_i hmem
    simp [List.nodup_append, h, hmem]

theorem mem_setInsert_iff (l : List K) (k x : K) :
    x ∈ setInsert l k ↔ x ∈ l ∨ x = k := by
  unfold setInsert
  split
  · rename_i hmem
    constructor
    · exact Or.inl
    · rintro (h | rfl)
      · exact h
      · exact hmem
  · simp

theorem setInsert_eq_self {l : List K} {k : K} (h : k ∈ l) :
    setInsert l k = l := by
  unfold setInsert
  rw [if_pos h]

theorem setRemove_sublist (l : List K) (k : K) : (setRemove l k).Sublist l := by
  induction l with
  | nil => exact List.Sublist.refl _
  | cons x rest ih =>
    by_cases h : x = k
    · rw [setRemove, if_pos h]
      exact List.sublist_cons_self x rest
    · rw [setRemove, if_neg h]
      exact ih.cons₂ x

theorem mem_setRemove_of_ne {l : List K} {x k : K} (hx : x ∈ l) (hne : x ≠ k) :
    x ∈ setRemove l k := by
  induction l with
  | nil => simp at hx
  | cons y rest ih =>
    rcases List.mem_cons.mp hx with rfl | hmem
    · rw [setRemove, if_neg hne]
      exact List.mem_cons_self _ _
    · by_cases hy : y = k
      · rw [setRemove, if_pos hy]
        exact hmem
      · rw [setRemove, if_neg hy]
        exact List.mem_cons_of_mem _ (ih hmem)

theorem not_mem_setRemove_self {l : List K} (h : l.Nodup) (k : K) :
    k ∉ setRemove l k := by
  induction l with
  | nil => simp [setRemove]
  | cons y rest ih =>
    rw [List.nodup_cons] at h
    by_cases hy : y = k
    · rw [setRemove, if_pos hy]
      rw [← hy]
      exact h.1
    · rw [setRemove, if_neg hy]
      intro hmem
      rcases List.mem_cons.mp hmem with rfl | hmem2
      · exact hy rfl
      · exact ih h.2 hmem2

theorem eq_of_not_mem_setRemove {l : List K} {x k : K} (hx : x ∈ l)
    (hnot : x ∉ setRemove l k) : x = k := by
  by_contra hne
  exact hnot (mem_setRemove_of_ne hx hne)

theorem setRemove_of_not_mem {l : List K} {k : K} (h : k ∉ l) :
    setRemove l k = l := by
  induction l with
  | nil => rfl
  | cons y rest ih =>
    rw [List.mem_cons, not_or] at h
    rw [setRemove, if_neg (fun hy => h.1 hy.symm)]
    rw [ih h.2]

end MapLemmas

section WfLemmas

variable {vs : List (K × Vertex K T)}

theorem wf_parents_nodup (hwf : WellFormedV vs) {k : K} {v : Vertex K T}
    (h : lookupV vs k = some v) : v.parents.Nodup :=
  (hwf.2.1 (k, v) (mem_of_lookupV_eq_some h)).1

theorem wf_children_nodup (hwf : WellFormedV vs) {k : K} {v : Vertex K T}
    (h : lookupV vs k = some v) : v.children.Nodup :=
  (hwf.2.1 (k, v) (mem_of_lookupV_eq_some h)).2.1

theorem wf_parents_keys (hwf : WellFormedV vs) {k : K} {v : Vertex K T}
    (h : lookupV vs k = some v) : ∀ u ∈ v.parents, u ∈ keysOf vs :=
  (hwf.2.1 (k, v) (mem_of_lookupV_eq_some h)).2.2.1

theorem wf_children_keys (hwf : WellFormedV vs) {k : K} {v : Vertex K T}
    (h : lookupV vs k = some v) : ∀ c ∈ v.children, c ∈ keysOf vs :=
  (hwf.2.1 (k, v) (mem_of_lookupV_eq_some h)).2.2.2

/-- One direction of the mirror invariant: a recorded child edge has a
matching parent entry. -/
theorem wf_mirror_cp (hwf : WellFormedV vs) {p c : K}
    (h : c ∈ childrenOf vs p) : p ∈ parentsOf vs c := by
  unfold childrenOf at h
  cases hl : lookupV vs p with
  | none => rw [hl] at h; simp at h
  | some v =>
    rw [hl] at h
    exact hwf.2.2.1 (p, v) (mem_of_lookupV_eq_some hl) c h

/-- The other direction: a recorded parent entry has a matching child
edge. -/
theorem wf_mirror_pc (hwf : WellFormedV vs) {c u : K}
    (h : u ∈ parentsOf vs c) : c ∈ childrenOf vs u := by
  unfold parentsOf at h
  cases hl : lookupV vs c with
  | none => rw [hl] at h; simp at h
  | some v =>
    rw [hl] at h
    exact hwf.2.2.2 (c, v) (mem_of_lookupV_eq_some hl) u h

theorem parentsOf_eq (vs : List (K × Vertex K T)) {k : K} {v : Vertex K T}
    (h : lookupV vs k = some v) : parentsOf vs k = v.parents := by
  unfold parentsOf
  rw [h]

theorem wf_childrenOf_keys (hwf : WellFormedV vs) {x c : K}
    (h : c ∈ childrenOf vs x) : c ∈ keysOf vs := by
  unfold childrenOf at h
  cases hl : lookupV vs x with
  | none => rw [hl] at h; simp at h
  | some v =>
    rw [hl] at h
    exact wf_children_keys hwf hl c h

theorem wf_parentsOf_keys (hwf : WellFormedV vs) {x u : K}
    (h : u ∈ parentsOf vs x) : u ∈ keysOf vs := by
  unfold parentsOf at h
  cases hl : lookupV vs x with
  | none => rw [hl] at h; simp at h
  | some v =>
    rw [hl] at h
    exact wf_parents_keys hwf hl u h

theorem childrenOf_eq (vs : List (K × Vertex K T)) {k : K} {v : Vertex K T}
    (h : lookupV vs k = some v) : childrenOf vs k = v.children := by
  unfold childrenOf
  rw [h]

end WfLemmas

theorem loopInv_init (vs0 : List (K × Vertex K T)) (hwf : WellFormedV vs0)
    (vorder : List K) (hperm : vorder.Perm (keysOf vs0)) :
    LoopInv vs0 vs0 (sortQueueInit vs0 vorder) [] := by
  have hpred : ∀ k ∈ sortQueueInit vs0 vorder, parentsOf vs0 k = [] := by
    intro k hk
    obtain ⟨_, hp⟩ := List.mem_filter.mp hk
    cases hl : lookupV vs0 k with
    | none => rw [hl] at hp; simp at hp
    | some v =>
      rw [hl] at hp
      rw [parentsOf_eq vs0 hl]
      have : v.parents.length = 0 := by
        simpa using hp
      exact List.length_eq_zero.mp this
  refine ⟨rfl, ?_, ?_, ?_, ?_, ?_, ?_, ?_, ?_, ?_, ?_⟩
  · intro k v0 h
    exact ⟨v0, h, rfl, rfl, List.Sublist.refl _⟩
  · intro k v0 v h1 h2 u hu hnot
    rw [h1] at h2
    injection h2 with h2
    rw [← h2] at hnot
    exact absurd hu hnot
  · intro k hk
    simp only [List.map_nil, List.nil_append] at hk
    exact hpred k hk
  · simp only [List.map_nil, List.nil_append]
    exact (hperm.nodup_iff.mpr hwf.1).filter _
  · intro k hk
    simp only [List.map_nil, List.nil_append] at hk
    obtain ⟨hmem, _⟩ := List.mem_filter.mp hk
    exact hperm.mem_iff.mp hmem
  · intro k hk hp
    simp only [List.map_nil, List.nil_append]
    refine List.mem_filter.mpr ⟨hperm.mem_iff.mpr hk, ?_⟩
    obtain ⟨v, hv⟩ := lookupV_eq_some_of_mem_keys vs0 k hk
    rw [parentsOf_eq vs0 hv] at hp
    simp [hv, hp]
  · intro u hu
    simp at hu
  · intro v hv
    simp at hv
  · intro p hp
    simp at hp
  · intro v hv
    exact hv

theorem processChildren_spec (vs0 vs : List (K × Vertex K T))
    (hwf : WellFormedV vs0) (k : K) (acc : List (K × T)) :
    ∀ (cs : List K) (vsc : List (K × Vertex K T)) (qc : List K),
      MidInv vs0 vs k acc vsc qc cs → cs.Nodup →
      (∀ c ∈ cs, c ∈ childrenOf vs0 k) →
      (∀ c ∈ cs, k ∈ parentsOf vs c) →
      MidInv vs0 vs k acc (processChildren vsc qc k cs).1
        (processChildren vsc qc k cs).2 [] := by
  intro cs
  induction cs with
  | nil =>
    intro vsc qc hmid _ _ _
    exact hmid
  | cons c cs ih =>
    intro vsc qc hmid hnd hsub hpar
    have hck0 : c ∈ childrenOf vs0 k := hsub c (List.mem_cons_self _ _)
    have hckeys : c ∈ keysOf vs0 := wf_childrenOf_keys hwf hck0
    obtain ⟨vc, hvc⟩ : ∃ vc, lookupV vsc c = some vc :=
      lookupV_eq_some_of_mem_keys vsc c (by rw [hmid.keysEq]; exact hckeys)
    obtain ⟨v0c, hv0c⟩ : ∃ v0c, lookupV vs0 c = some v0c :=
      lookupV_eq_some_of_mem_keys vs0 c hckeys
    have hparc : parentsOf vsc c = parentsOf vs c :=
      hmid.todoUntouched c (List.mem_cons_self _ _)
    have hparc_vc : parentsOf vsc c = vc.parents := parentsOf_eq vsc hvc
    have hkin : k ∈ vc.parents := by
      rw [← hparc_vc, hparc]
      exact hpar c (List.mem_cons_self _ _)
    have hvcnodup : vc.parents.Nodup := by
      obtain ⟨v, hv, _, _, hsb⟩ := hmid.pres c v0c hv0c
      rw [hvc] at hv
      injection hv with hv
      rw [hv]
      exact hsb.nodup (wf_parents_nodup hwf hv0c)
    have hlook' : lookupV (modifyV vsc c fun v =>
        { v with parents := setRemove v.parents k }) c =
        some { vc with parents := setRemove vc.parents k } := by
      rw [lookupV_modifyV_self, hvc]
      rfl
    have hlookx : ∀ x, x ≠ c → lookupV (modifyV vsc c fun v =>
        { v with parents := setRemove v.parents k }) x = lookupV vsc x :=
      fun x hx => lookupV_modifyV_other vsc c x _ hx
    have hpar'c : parentsOf (modifyV vsc c fun v =>
        { v with parents := setRemove v.parents k }) c = setRemove vc.parents k :=
      parentsOf_eq _ hlook'
    have hpar'x : ∀ x, x ≠ c → parentsOf (modifyV vsc c fun v =>
        { v with parents := setRemove v.parents k }) x = parentsOf vsc x := by
      intro x hx
      unfold parentsOf
      rw [hlookx x hx]
    have hcnotfront : c ∉ (acc.map Prod.fst ++ [k]) ++ qc := by
      intro hmem
      have h1 := hmid.frontEmpty c hmem
      rw [hparc_vc] at h1
      rw [h1] at hkin
      simp at hkin
    have hcnotcs : c ∉ cs := (List.nodup_cons.mp hnd).1
    have hkc : k ≠ c := by
      intro hkc
      exact hcnotfront (by simp [hkc])
    have hstep : processChildren vsc qc k (c :: cs) =
        processChildren (modifyV vsc c fun v =>
          { v with parents := setRemove v.parents k })
          (if (setRemove vc.parents k).length = 0 then qc ++ [c] else qc) k cs := by
      simp only [processChildren, hlook']
    rw [hstep]
    -- establish the invariant for the tail, in both the push and no-push cases
    have hnewmid : MidInv vs0 vs k acc
        (modifyV vsc c fun v => { v with parents := setRemove v.parents k })
        (if (setRemove vc.parents k).length = 0 then qc ++ [c] else qc) cs := by
      constructor
      · rw [keysOf_modifyV]
        exact hmid.keysEq
      · intro x v0 h0
        by_cases hx : x = c
        · subst hx
          obtain ⟨v, hv, hch, hit, hsb⟩ := hmid.pres x v0 h0
          rw [hvc] at hv
          injection hv with hv
          subst hv
          exact ⟨_, hlook', hch, hit, (setRemove_sublist _ _).trans hsb⟩
        · obtain ⟨v, hv, hch, hit, hsb⟩ := hmid.pres x v0 h0
          exact ⟨v, by rw [hlookx x hx]; exact hv, hch, hit, hsb⟩
      · intro x v0 v h0 h' u hu hnot
        by_cases hx : x = c
        · subst hx
          rw [hlook'] at h'
          injection h' with h'
          subst h'
          by_cases humem : u ∈ vc.parents
          · have hueq : u = k := eq_of_not_mem_setRemove humem (by simpa using hnot)
            rw [hueq]
            exact List.mem_append_right _ (List.mem_singleton.mpr rfl)
          · exact hmid.removedEmitted x v0 vc h0 hvc u hu humem
        · rw [hlookx x hx] at h'
          exact hmid.removedEmitted x v0 v h0 h' u hu hnot
      · intro x hx
        by_cases hzero : (setRemove vc.parents k).length = 0
        · rw [if_pos hzero] at hx
          rw [← List.append_assoc] at hx
          rcases List.mem_append.mp hx with hold | hc
          · have hxc : x ≠ c := by
              rintro rfl
              exact hcnotfront hold
            rw [hpar'x x hxc]
            exact hmid.frontEmpty x hold
          · have hxc : x = c := List.mem_singleton.mp hc
            subst hxc
            rw [hpar'c]
            exact List.length_eq_zero.mp hzero
        · rw [if_neg hzero] at hx
          have hxc : x ≠ c := by
            rintro rfl
            exact hcnotfront hx
          rw [hpar'x x hxc]
          exact hmid.frontEmpty x hx
      · by_cases hzero : (setRemove vc.parents k).length = 0
        · rw [if_pos hzero, ← List.append_assoc]
          rw [List.nodup_append]
          refine ⟨hmid.nodupFront, List.nodup_singleton c, ?_⟩
          intro x hx hxc
          rw [List.mem_singleton.mp hxc] at hx
          exact hcnotfront hx
        · rw [if_neg hzero]
          exact hmid.nodupFront
      · intro x hx
        by_cases hzero : (setRemove vc.parents k).length = 0
        · rw [if_pos hzero, ← List.append_assoc] at hx
          rcases List.mem_append.mp hx with hold | hc
          · exact hmid.frontKeys x hold
          · rw [List.mem_singleton.mp hc]
            exact hckeys
        · rw [if_neg hzero] at hx
          exact hmid.frontKeys x hx
      · intro x hxkeys hx0
        by_cases hxc : x = c
        · subst hxc
          rw [hpar'c] at hx0
          have hzero : (setRemove vc.parents k).length = 0 := by
            rw [hx0]
            rfl
          rw [if_pos hzero, ← List.append_assoc]
          exact List.mem_append_right _ (List.mem_singleton.mpr rfl)
        · rw [hpar'x x hxc] at hx0
          have hold := hmid.emptyFront x hxkeys hx0
          by_cases hzero : (setRemove vc.parents k).length = 0
          · rw [if_pos hzero, ← List.append_assoc]
            exact List.mem_append_left _ hold
          · rw [if_neg hzero]
            exact hold
      · intro u hu x
        by_cases hxc : x = c
        · rw [hxc, hpar'c]
          intro hmem
          have h2 : u ∈ vc.parents := (setRemove_sublist _ _).subset hmem
          exact hmid.emittedDone u hu c (by rw [hparc_vc]; exact h2)
        · rw [hpar'x x hxc]
          exact hmid.emittedDone u hu x
      · intro x hxcs
        by_cases hxc : x = c
        · subst hxc
          rw [hpar'c]
          exact not_mem_setRemove_self hvcnodup k
        · rw [hpar'x x hxc]
          exact hmid.poppedDone x (by
            intro hmem
            rcases List.mem_cons.mp hmem with h | h
            · exact hxc h
            · exact hxcs h)
      · intro c' hc'
        have hc'c : c' ≠ c := by
          rintro rfl
          exact hcnotcs hc'
        rw [hpar'x c' hc'c]
        exact hmid.todoUntouched c' (List.mem_cons_of_mem _ hc')
      · intro v hv
        have hold := hmid.selfPres v hv
        by_cases hvc' : v = c
        · rw [hvc', hpar'c]
          rw [hvc'] at hold
          rw [hparc_vc] at hold
          have hvk : c ≠ k := fun h => hkc h.symm
          exact mem_setRemove_of_ne hold hvk
        · rw [hpar'x v hvc']
          exact hold
    exact ih _ _ hnewmid (List.nodup_cons.mp hnd).2
      (fun c' hc' => hsub c' (List.mem_cons_of_mem _ hc'))
      (fun c' hc' => hpar c' (List.mem_cons_of_mem _ hc'))

omit [DecidableEq K] in
theorem before_append_right {l l' : List K} {u v : K} (h : Before l u v) :
    Before (l ++ l') u v := by
  obtain ⟨l₁, l₂, l₃, rfl⟩ := h
  exact ⟨l₁, l₂, l₃ ++ l', by simp⟩

omit [DecidableEq K] in
theorem before_append_last {l : List K} {u k : K} (h : u ∈ l) :
    Before (l ++ [k]) u k := by
  obtain ⟨s, t, rfl⟩ := List.append_of_mem h
  exact ⟨s, t, [], by simp⟩

theorem sortLoop_nil (fuel : Nat) (vs : List (K × Vertex K T)) (acc : List (K × T)) :
    sortLoop fuel vs [] acc = some (acc, vs) := by
  cases fuel <;> rfl

theorem sortLoop_spec (vs0 : List (K × Vertex K T)) (hwf : WellFormedV vs0) :
    ∀ (fuel : Nat) (vs : List (K × Vertex K T)) (q : List K) (acc : List (K × T)),
      LoopInv vs0 vs q acc → vs0.length ≤ fuel + acc.length →
      ∃ accE vsE, sortLoop fuel vs q acc = some (accE, vsE) ∧
        (∃ ext, accE = acc ++ ext) ∧ LoopInv vs0 vsE [] accE := by
  have hfrontlen : ∀ (vs : List (K × Vertex K T)) (q : List K) (acc : List (K × T)),
      LoopInv vs0 vs q acc → (acc.map Prod.fst ++ q).length ≤ vs0.length := by
    intro vs q acc hinv
    have hsp : (acc.map Prod.fst ++ q).Subperm (keysOf vs0) :=
      List.subperm_of_subset hinv.nodupFront fun x hx => hinv.frontKeys x hx
    have := hsp.length_le
    simpa [keysOf] using this
  intro fuel
  induction fuel with
  | zero =>
    intro vs q acc hinv hfuel
    cases q with
    | nil => exact ⟨acc, vs, sortLoop_nil 0 vs acc, ⟨[], by simp⟩, hinv⟩
    | cons k rest =>
      exfalso
      have := hfrontlen vs (k :: rest) acc hinv
      simp only [List.length_append, List.length_map, List.length_cons] at this
      omega
  | succ fuel ih =>
    intro vs q acc hinv hfuel
    cases q with
    | nil => exact ⟨acc, vs, sortLoop_nil _ vs acc, ⟨[], by simp⟩, hinv⟩
    | cons k rest =>
      have hkfront : k ∈ acc.map Prod.fst ++ k :: rest := by simp
      have hkkeys : k ∈ keysOf vs0 := hinv.frontKeys k hkfront
      obtain ⟨vert, hvert⟩ := lookupV_eq_some_of_mem_keys vs k
        (by rw [hinv.keysEq]; exact hkkeys)
      obtain ⟨v0k, hv0k⟩ := lookupV_eq_some_of_mem_keys vs0 k hkkeys
      obtain ⟨v', hv', hch, hit, hsb⟩ := hinv.pres k v0k hv0k
      have hveq : v' = vert := by
        rw [hvert] at hv'
        injection hv' with h
        exact h.symm
      subst hveq
      have hknotacc : k ∉ acc.map Prod.fst := by
        intro hmem
        have hnd := hinv.nodupFront
        rw [List.nodup_append] at hnd
        exact hnd.2.2 hmem (List.mem_cons_self _ _)
      have hfr : (acc.map Prod.fst ++ [k]) ++ rest = acc.map Prod.fst ++ k :: rest := by
        simp
      have hchild0 : childrenOf vs0 k = v'.children := by
        rw [childrenOf_eq vs0 hv0k, hch]
      have hparvs : parentsOf vs k = [] := hinv.frontEmpty k hkfront
      have hvertpar : v'.parents = [] := by
        rw [← parentsOf_eq vs hvert]
        exact hparvs
      have hsubc : ∀ c ∈ v'.children, c ∈ childrenOf vs0 k := by
        intro c hc
        rw [hchild0]
        exact hc
      have hparc : ∀ c ∈ v'.children, k ∈ parentsOf vs c := by
        intro c hc
        have hc0 : c ∈ childrenOf vs0 k := hsubc c hc
        have hp0 : k ∈ parentsOf vs0 c := wf_mirror_cp hwf hc0
        have hckeys : c ∈ keysOf vs0 := wf_childrenOf_keys hwf hc0
        obtain ⟨v0c, hv0c⟩ := lookupV_eq_some_of_mem_keys vs0 c hckeys
        obtain ⟨vc', hvc', _, _, _⟩ := hinv.pres c v0c hv0c
        by_contra hnot
        rw [parentsOf_eq vs hvc'] at hnot
        rw [parentsOf_eq vs0 hv0c] at hp0
        exact hknotacc (hinv.removedEmitted c v0c vc' hv0c hvc' k hp0 hnot)
      have hmid0 : MidInv vs0 vs k acc vs rest v'.children := by
        refine ⟨hinv.keysEq, hinv.pres, ?_, ?_, ?_, ?_, ?_, ?_, ?_, ?_, hinv.selfPres⟩
        · intro x v0 v h0 h' u hu hnot
          exact List.mem_append_left _ (hinv.removedEmitted x v0 v h0 h' u hu hnot)
        · intro x hx
          rw [hfr] at hx
          exact hinv.frontEmpty x hx
        · rw [hfr]
          exact hinv.nodupFront
        · intro x hx
          rw [hfr] at hx
          exact hinv.frontKeys x hx
        · intro x hxk hx0
          rw [hfr]
          exact hinv.emptyFront x hxk hx0
        · intro u hu x
          exact hinv.emittedDone u hu x
        · intro x hx
          by_contra hkin
          have hlx : ∃ vx, lookupV vs x = some vx := by
            unfold parentsOf at hkin
            cases hl : lookupV vs x with
            | none => rw [hl] at hkin; simp at hkin
            | some vx => exact ⟨vx, rfl⟩
          obtain ⟨vx, hvx⟩ := hlx
          have hxkeys : x ∈ keysOf vs0 := by
            rw [← hinv.keysEq]
            exact mem_keys_of_lookupV_eq_some hvx
          obtain ⟨v0x, hv0x⟩ := lookupV_eq_some_of_mem_keys vs0 x hxkeys
          obtain ⟨vx', hvx', _, _, hsbx⟩ := hinv.pres x v0x hv0x
          have hvxeq : vx' = vx := by
            rw [hvx] at hvx'
            injection hvx' with h
            exact h.symm
          subst hvxeq
          rw [parentsOf_eq vs hvx] at hkin
          have hk0 : k ∈ parentsOf vs0 x := by
            rw [parentsOf_eq vs0 hv0x]
            exact hsbx.subset hkin
          have : x ∈ childrenOf vs0 k := wf_mirror_pc hwf hk0
          rw [hchild0] at this
          exact hx this
        · intro c hc
          rfl
      have hcnodup : v'.children.Nodup := by
        rw [hch]
        exact wf_children_nodup hwf hv0k
      have hmidE := processChildren_spec vs0 vs hwf k acc v'.children vs rest
        hmid0 hcnodup hsubc hparc
      have hstep : sortLoop (fuel + 1) vs (k :: rest) acc =
          sortLoop fuel (processChildren vs rest k v'.children).1
            (processChildren vs rest k v'.children).2 (acc ++ [(k, v'.item)]) := by
        simp only [sortLoop, hvert]
      have hmapfst : (acc ++ [(k, v'.item)]).map Prod.fst = acc.map Prod.fst ++ [k] := by
        simp
      have hnewinv : LoopInv vs0 (processChildren vs rest k v'.children).1
          (processChildren vs rest k v'.children).2 (acc ++ [(k, v'.item)]) := by
        refine ⟨hmidE.keysEq, hmidE.pres, ?_, ?_, ?_, ?_, ?_, ?_, ?_, ?_, hmidE.selfPres⟩
        · intro x v0 v h0 h' u hu hnot
          rw [hmapfst]
          exact hmidE.removedEmitted x v0 v h0 h' u hu hnot
        · intro x hx
          rw [hmapfst] at hx
          exact hmidE.frontEmpty x hx
        · rw [hmapfst]
          exact hmidE.nodupFront
        · intro x hx
          rw [hmapfst] at hx
          exact hmidE.frontKeys x hx
        · intro x hxk hx0
          rw [hmapfst]
          exact hmidE.emptyFront x hxk hx0
        · intro u hu x
          rw [hmapfst] at hu
          rcases List.mem_append.mp hu with hacc | hk
          · exact hmidE.emittedDone u hacc x
          · rw [List.mem_singleton.mp hk]
            exact hmidE.poppedDone x (by simp)
        · intro v hv u hu
          rw [hmapfst] at hv ⊢
          rcases List.mem_append.mp hv with hacc | hk
          · exact before_append_right (hinv.beforeParents v hacc u hu)
          · rw [List.mem_singleton.mp hk] at hu ⊢
            have hu0 : u ∈ v0k.parents := by
              rw [parentsOf_eq vs0 hv0k] at hu
              exact hu
            have hunot : u ∉ v'.parents := by
              rw [hvertpar]
              simp
            have huacc : u ∈ acc.map Prod.fst :=
              hinv.removedEmitted k v0k v' hv0k hvert u hu0 hunot
            exact before_append_last huacc
        · intro p hp
          rcases List.mem_append.mp hp with hacc | hnew
          · exact hinv.accItems p hacc
          · rw [List.mem_singleton.mp hnew]
            exact ⟨v0k, hv0k, hit.symm⟩
      obtain ⟨accE, vsE, hrun, ⟨ext, hext⟩, hinvE⟩ := ih
        (processChildren vs rest k v'.children).1
        (processChildren vs rest k v'.children).2
        (acc ++ [(k, v'.item)]) hnewinv (by simp; omega)
      refine ⟨accE, vsE, ?_, ⟨(k, v'.item) :: ext, ?_⟩, hinvE⟩
      · rw [hstep]
        exact hrun
      · rw [hext]
        simp

theorem sortCore_spec (vs0 : List (K × Vertex K T)) (hwf : WellFormedV vs0)
    (vorder : List K) (hperm : vorder.Perm (keysOf vs0)) :
    (sortQueueInit vs0 vorder = [] ∧
      sortCore vs0 vorder = some ([], some GraphError.cycleDetected, vs0)) ∨
    (∃ accE vsE, sortCore vs0 vorder = some (accE.map Prod.snd, none, vsE) ∧
      LoopInv vs0 vsE [] accE) := by
  by_cases hinit : (sortQueueInit vs0 vorder).isEmpty
  · left
    refine ⟨List.isEmpty_iff.mp hinit, ?_⟩
    simp only [sortCore, hinit]
    rfl
  · right
    obtain ⟨accE, vsE, hrun, _, hinvE⟩ := sortLoop_spec vs0 hwf vs0.length vs0
      (sortQueueInit vs0 vorder) [] (loopInv_init vs0 hwf vorder hperm) (by simp)
    refine ⟨accE, vsE, ?_, hinvE⟩
    simp only [sortCore, hinit, hrun]
    simp

/-- All the facts the claims need about a completed drain, extracted from
the final loop invariant. -/
theorem loopInv_final (vs0 : List (K × Vertex K T)) (hwf : WellFormedV vs0)
    [Inhabited T] (vsE : List (K × Vertex K T)) (accE : List (K × T))
    (hinv : LoopInv vs0 vsE [] accE) :
    (accE.map Prod.fst).Nodup ∧
    (∀ x ∈ accE.map Prod.fst, x ∈ keysOf vs0) ∧
    (accE.map Prod.snd = (accE.map Prod.fst).map (payloadOf vs0)) ∧
    (∀ u v, v ∈ childrenOf vs0 u → v ∈ accE.map Prod.fst →
      Before (accE.map Prod.fst) u v) ∧
    (WellFounded (fun u v => v ∈ childrenOf vs0 u) →
      (accE.map Prod.fst).Perm (keysOf vs0)) ∧
    (∀ v, v ∈ parentsOf vs0 v → v ∉ accE.map Prod.fst) := by
  have hnd : (accE.map Prod.fst).Nodup := by
    have := hinv.nodupFront
    simpa using this
  have hkeys : ∀ x ∈ accE.map Prod.fst, x ∈ keysOf vs0 := by
    intro x hx
    exact hinv.frontKeys x (by simpa using hx)
  refine ⟨hnd, hkeys, ?_, ?_, ?_, ?_⟩
  · have hpt : ∀ p ∈ accE, Prod.snd p = payloadOf vs0 p.1 := by
      intro p hp
      obtain ⟨v0, hv0, hitem⟩ := hinv.accItems p hp
      unfold payloadOf
      rw [hv0]
      exact hitem.symm
    calc accE.map Prod.snd = accE.map (fun p => payloadOf vs0 p.1) :=
          List.map_congr_left hpt
      _ = (accE.map Prod.fst).map (payloadOf vs0) := by
          rw [List.map_map]
          rfl
  · intro u v hedge hv
    exact hinv.beforeParents v hv u (wf_mirror_cp hwf hedge)
  · intro hacyc
    rw [List.perm_ext_iff_of_nodup hnd hwf.1]
    intro x
    constructor
    · exact hkeys x
    · intro hxkeys
      by_contra hnot
      -- the set of unemitted keys would contain an edge-minimal element
      -- that still has a parent among the unemitted keys
      have hne : Set.Nonempty {y | y ∈ keysOf vs0 ∧ y ∉ accE.map Prod.fst} :=
        ⟨x, hxkeys, hnot⟩
      obtain ⟨m, ⟨hmkeys, hmnot⟩, hmin⟩ := hacyc.has_min _ hne
      have hmpar : parentsOf vsE m ≠ [] := by
        intro h0
        have := hinv.emptyFront m hmkeys h0
        simp at this
        exact hmnot (by simpa using this)
      obtain ⟨u, hu⟩ : ∃ u, u ∈ parentsOf vsE m := by
        cases hl : parentsOf vsE m with
        | nil => exact absurd hl hmpar
        | cons a l => exact ⟨a, by simp [hl]⟩
      obtain ⟨v0m, hv0m⟩ := lookupV_eq_some_of_mem_keys vs0 m hmkeys
      obtain ⟨vm, hvm, _, _, hsbm⟩ := hinv.pres m v0m hv0m
      have hu0 : u ∈ parentsOf vs0 m := by
        rw [parentsOf_eq vsE hvm] at hu
        rw [parentsOf_eq vs0 hv0m]
        exact hsbm.subset hu
      have hrel : m ∈ childrenOf vs0 u := wf_mirror_pc hwf hu0
      have hukeys : u ∈ keysOf vs0 := wf_parentsOf_keys hwf hu0
      have hunot : u ∉ accE.map Prod.fst := by
        intro humem
        exact hinv.emittedDone u humem m hu
      exact hmin u ⟨hukeys, hunot⟩ hrel
  · intro v hvself hvmem
    have hpres := hinv.selfPres v hvself
    have := hinv.frontEmpty v (by simpa using hvmem)
    rw [this] at hpres
    simp at hpres

theorem lookupV_of_mem_nodup {vs : List (K × Vertex K T)}
    (hnd : (keysOf vs).Nodup) {k : K} {v : Vertex K T} (h : (k, v) ∈ vs) :
    lookupV vs k = some v := by
  induction vs with
  | nil => simp at h
  | cons p rest ih =>
    simp only [keysOf, List.map_cons, List.nodup_cons] at hnd
    rcases List.mem_cons.mp h with heq | hmem
    · rw [lookupV, if_pos (show k = p.1 by rw [← heq])]
      rw [show p.2 = v from by rw [← heq]]
    · have hkne : k ≠ p.1 := by
        intro hk
        apply hnd.1
        rw [← hk]
        exact List.mem_map.mpr ⟨(k, v), hmem, rfl⟩
      rw [lookupV, if_neg hkne]
      exact ih hnd.2 hmem

/-- Build well-formedness from the key-indexed adjacency functions. -/
theorem wellFormedV_mk {vs : List (K × Vertex K T)}
    (hnd : (keysOf vs).Nodup)
    (h2 : ∀ k ∈ keysOf vs, (parentsOf vs k).Nodup ∧ (childrenOf vs k).Nodup ∧
      (∀ u ∈ parentsOf vs k, u ∈ keysOf vs) ∧ (∀ c ∈ childrenOf vs k, c ∈ keysOf vs))
    (h3 : ∀ k c, c ∈ childrenOf vs k → k ∈ parentsOf vs c)
    (h4 : ∀ k u, u ∈ parentsOf vs k → k ∈ childrenOf vs u) :
    WellFormedV vs := by
  have hlk : ∀ p ∈ vs, lookupV vs p.1 = some p.2 := by
    intro p hp
    obtain ⟨k, v⟩ := p
    exact lookupV_of_mem_nodup hnd hp
  have hkeymem : ∀ p ∈ vs, p.1 ∈ keysOf vs := by
    intro p hp
    exact List.mem_map.mpr ⟨p, hp, rfl⟩
  refine ⟨hnd, ?_, ?_, ?_⟩
  · intro p hp
    have hl := hlk p hp
    have h2p := h2 p.1 (hkeymem p hp)
    rw [parentsOf_eq vs hl, childrenOf_eq vs hl] at h2p
    exact ⟨h2p.1, h2p.2.1, h2p.2.2.1, h2p.2.2.2⟩
  · intro p hp c hc
    have hl := hlk p hp
    apply h3 p.1 c
    rw [childrenOf_eq vs hl]
    exact hc
  · intro p hp u hu
    have hl := hlk p hp
    apply h4 p.1 u
    rw [parentsOf_eq vs hl]
    exact hu

theorem parentsOf_append {vs rest : List (K × Vertex K T)} {c : K}
    (h : c ∈ keysOf vs) : parentsOf (vs ++ rest) c = parentsOf vs c := by
  obtain ⟨v, hv⟩ := lookupV_eq_some_of_mem_keys vs c h
  unfold parentsOf
  rw [lookupV_append_some rest hv, hv]

theorem childrenOf_append {vs rest : List (K × Vertex K T)} {c : K}
    (h : c ∈ keysOf vs) : childrenOf (vs ++ rest) c = childrenOf vs c := by
  obtain ⟨v, hv⟩ := lookupV_eq_some_of_mem_keys vs c h
  unfold childrenOf
  rw [lookupV_append_some rest hv, hv]

theorem addVertex_wf (g : Graph K T) (id : K) (item : T) (hwf : WellFormed g) :
    WellFormed (addVertex g id item).1 := by
  unfold addVertex
  by_cases h : (lookupV g.vertices id).isSome
  · rw [if_pos h]
    exact hwf
  · rw [if_neg h]
    have hidnot : id ∉ keysOf g.vertices := fun hmem =>
      h ((lookupV_isSome_iff _ _).mpr hmem)
    show WellFormedV (g.vertices ++ [(id, ⟨[], [], item⟩)])
    have hkeysnew : keysOf (g.vertices ++ [(id, (⟨[], [], item⟩ : Vertex K T))]) =
        keysOf g.vertices ++ [id] := by
      simp [keysOf]
    refine ⟨?_, ?_, ?_, ?_⟩
    · rw [hkeysnew, List.nodup_append]
      exact ⟨hwf.1, List.nodup_singleton _, fun x hx hid =>
        hidnot (by rw [← List.mem_singleton.mp hid]; exact hx)⟩
    · intro p hp
      rcases List.mem_append.mp hp with hold | hnew
      · have h2 := hwf.2.1 p hold
        exact ⟨h2.1, h2.2.1,
          fun u hu => by rw [hkeysnew]; exact List.mem_append_left _ (h2.2.2.1 u hu),
          fun c hc => by rw [hkeysnew]; exact List.mem_append_left _ (h2.2.2.2 c hc)⟩
      · have hpnew : p = (id, (⟨[], [], item⟩ : Vertex K T)) := List.mem_singleton.mp hnew
        rw [hpnew]
        refine ⟨List.nodup_nil, List.nodup_nil, ?_, ?_⟩
        · intro u hu
          simp at hu
        · intro c hc
          simp at hc
    · intro p hp c hc
      rcases List.mem_append.mp hp with hold | hnew
      · have hckeys : c ∈ keysOf g.vertices := (hwf.2.1 p hold).2.2.2 c hc
        rw [parentsOf_append hckeys]
        exact hwf.2.2.1 p hold c hc
      · rw [List.mem_singleton.mp hnew] at hc
        simp at hc
    · intro p hp u hu
      rcases List.mem_append.mp hp with hold | hnew
      · have hukeys : u ∈ keysOf g.vertices := (hwf.2.1 p hold).2.2.1 u hu
        rw [childrenOf_append hukeys]
        exact hwf.2.2.2 p hold u hu
      · rw [List.mem_singleton.mp hnew] at hu
        simp at hu

section AddEdgeLemmas

variable {g : Graph K T} {fromId toId : K} {vf vt : Vertex K T}

/-- After a successful `AddEdge`, the children function: only `fromId`'s
children gain `toId`. -/
theorem addEdge_childrenOf (hf : lookupV g.vertices fromId = some vf)
    (ht : lookupV g.vertices toId = some vt) (x : K) :
    childrenOf (addEdge g fromId toId).1.vertices x =
      if x = fromId then setInsert (childrenOf g.vertices fromId) toId
      else childrenOf g.vertices x := by
  have hres : (addEdge g fromId toId).1.vertices =
      modifyV (modifyV g.vertices fromId
        (fun v => { v with children := setInsert v.children toId })) toId
        (fun v => { v with parents := setInsert v.parents fromId }) := by
    simp only [addEdge, hf, ht]
  rw [hres]
  have step2 : ∀ y, childrenOf (modifyV (modifyV g.vertices fromId
      (fun v => { v with children := setInsert v.children toId })) toId
      (fun v => { v with parents := setInsert v.parents fromId })) y =
      childrenOf (modifyV g.vertices fromId
        (fun v => { v with children := setInsert v.children toId })) y := by
    intro y
    by_cases hy : y = toId
    · unfold childrenOf
      rw [hy, lookupV_modifyV_self]
      cases lookupV (modifyV g.vertices fromId
        (fun v => { v with children := setInsert v.children toId })) toId with
      | none => rfl
      | some w => rfl
    · unfold childrenOf
      rw [lookupV_modifyV_other _ _ _ _ hy]
  rw [step2]
  by_cases hx : x = fromId
  · rw [if_pos hx]
    unfold childrenOf
    rw [hx, lookupV_modifyV_self, hf]
    rfl
  · rw [if_neg hx]
    unfold childrenOf
    rw [lookupV_modifyV_other _ _ _ _ hx]

/-- After a successful `AddEdge`, the parents function: only `toId`'s
parents gain `fromId`. -/
theorem addEdge_parentsOf (hf : lookupV g.vertices fromId = some vf)
    (ht : lookupV g.vertices toId = some vt) (x : K) :
    parentsOf (addEdge g fromId toId).1.vertices x =
      if x = toId then setInsert (parentsOf g.vertices toId) fromId
      else parentsOf g.vertices x := by
  have hres : (addEdge g fromId toId).1.vertices =
      modifyV (modifyV g.vertices fromId
        (fun v => { v with children := setInsert v.children toId })) toId
        (fun v => { v with parents := setInsert v.parents fromId }) := by
    simp only [addEdge, hf, ht]
  rw [hres]
  have step1 : ∀ y, parentsOf (modifyV g.vertices fromId
      (fun v => { v with children := setInsert v.children toId })) y =
      parentsOf g.vertices y := by
    intro y
    by_cases hy : y = fromId
    · subst hy
      unfold parentsOf
      rw [lookupV_modifyV_self, hf]
      rfl
    · unfold parentsOf
      rw [lookupV_modifyV_other _ _ _ _ hy]
  by_cases hx : x = toId
  · rw [if_pos hx]
    obtain ⟨w, hw1, hw2⟩ : ∃ w, lookupV (modifyV g.vertices fromId
        (fun v => { v with children := setInsert v.children toId })) toId = some w ∧
        w.parents = vt.parents := by
      by_cases htf : toId = fromId
      · have hvfvt : vf = vt := by
          rw [htf, hf] at ht
          injection ht
        refine ⟨{ vf with children := setInsert vf.children toId }, ?_, by rw [hvfvt]⟩
        rw [htf, lookupV_modifyV_self, hf]
        rfl
      · exact ⟨vt, by rw [lookupV_modifyV_other _ _ _ _ htf]; exact ht, rfl⟩
    unfold parentsOf
    rw [hx, lookupV_modifyV_self, hw1, ht]
    show setInsert w.parents fromId = setInsert vt.parents fromId
    rw [hw2]
  · rw [if_neg hx]
    unfold parentsOf
    rw [lookupV_modifyV_other _ _ _ _ hx]
    have := step1 x
    unfold parentsOf at this
    exact this

theorem addEdge_keys (hf : lookupV g.vertices fromId = some vf)
    (ht : lookupV g.vertices toId = some vt) :
    keysOf (addEdge g fromId toId).1.vertices = keysOf g.vertices := by
  simp only [addEdge, hf, ht]
  rw [keysOf_modifyV, keysOf_modifyV]

theorem addEdge_wf (hwf : WellFormed g)
    (hf : lookupV g.vertices fromId = some vf)
    (ht : lookupV g.vertices toId = some vt) :
    WellFormed (addEdge g fromId toId).1 := by
  have hkeys := addEdge_keys hf ht
  have hfk : fromId ∈ keysOf g.vertices := mem_keys_of_lookupV_eq_some hf
  have htk : toId ∈ keysOf g.vertices := mem_keys_of_lookupV_eq_some ht
  have hpnd : ∀ k ∈ keysOf g.vertices, (parentsOf g.vertices k).Nodup ∧
      (childrenOf g.vertices k).Nodup ∧
      (∀ u ∈ parentsOf g.vertices k, u ∈ keysOf g.vertices) ∧
      (∀ c ∈ childrenOf g.vertices k, c ∈ keysOf g.vertices) := by
    intro k hk
    obtain ⟨v, hv⟩ := lookupV_eq_some_of_mem_keys _ _ hk
    rw [parentsOf_eq _ hv, childrenOf_eq _ hv]
    exact ⟨wf_parents_nodup hwf hv, wf_children_nodup hwf hv,
      wf_parents_keys hwf hv, wf_children_keys hwf hv⟩
  apply wellFormedV_mk
  · rw [hkeys]
    exact hwf.1
  · intro k hk
    rw [hkeys] at hk
    rw [addEdge_parentsOf hf ht k, addEdge_childrenOf hf ht k]
    obtain ⟨hpn, hcn, hpk, hck⟩ := hpnd k hk
    refine ⟨?_, ?_, ?_, ?_⟩
    · split
      · rename_i hk'
        rw [← hk']
        exact setInsert_nodup _ hpn
      · exact hpn
    · split
      · rename_i hk'
        rw [← hk']
        exact setInsert_nodup _ hcn
      · exact hcn
    · intro u hu
      rw [hkeys]
      split at hu
      · rename_i hk'
        rw [← hk'] at hu
        rcases (mem_setInsert_iff _ _ _).mp hu with hold | hnew
        · exact hpk u hold
        · rw [hnew]
          exact hfk
      · exact hpk u hu
    · intro c hc
      rw [hkeys]
      split at hc
      · rename_i hk'
        rw [← hk'] at hc
        rcases (mem_setInsert_iff _ _ _).mp hc with hold | hnew
        · exact hck c hold
        · rw [hnew]
          exact htk
      · exact hck c hc
  · intro k c hc
    rw [addEdge_childrenOf hf ht k] at hc
    rw [addEdge_parentsOf hf ht c]
    by_cases hkf : k = fromId
    · rw [if_pos hkf] at hc
      rw [← hkf] at hc
      rcases (mem_setInsert_iff _ _ _).mp hc with hold | hceq
      · have hm : k ∈ parentsOf g.vertices c := by
          rw [hkf] at hold ⊢
          exact wf_mirror_cp hwf hold
        split
        · rename_i hc'
          rw [← hc']
          exact (mem_setInsert_iff _ _ _).mpr (Or.inl (by rw [hc'] at hm ⊢; exact hm))
        · exact hm
      · rw [if_pos hceq]
        exact (mem_setInsert_iff _ _ _).mpr (Or.inr hkf)
    · rw [if_neg hkf] at hc
      have hm : k ∈ parentsOf g.vertices c := wf_mirror_cp hwf hc
      split
      · rename_i hc'
        rw [← hc']
        exact (mem_setInsert_iff _ _ _).mpr (Or.inl (by rw [hc'] at hm ⊢; exact hm))
      · exact hm
  · intro k u hu
    rw [addEdge_parentsOf hf ht k] at hu
    rw [addEdge_childrenOf hf ht u]
    by_cases hkt : k = toId
    · rw [if_pos hkt] at hu
      rw [← hkt] at hu
      rcases (mem_setInsert_iff _ _ _).mp hu with hold | hueq
      · have hm : k ∈ childrenOf g.vertices u := by
          rw [hkt] at hold ⊢
          exact wf_mirror_pc hwf hold
        split
        · rename_i hu'
          rw [← hu']
          exact (mem_setInsert_iff _ _ _).mpr (Or.inl (by rw [hu'] at hm ⊢; exact hm))
        · exact hm
      · rw [if_pos hueq]
        exact (mem_setInsert_iff _ _ _).mpr (Or.inr hkt)
    · rw [if_neg hkt] at hu
      have hm : k ∈ childrenOf g.vertices u := wf_mirror_pc hwf hu
      split
      · rename_i hu'
        rw [← hu']
        exact (mem_setInsert_iff _ _ _).mpr (Or.inl (by rw [hu'] at hm ⊢; exact hm))
      · exact hm

end AddEdgeLemmas

theorem new_wf : WellFormed (new : Graph K T) := by
  refine ⟨?_, ?_, ?_, ?_⟩
  · simp [new, keysOf]
  · intro p hp
    simp [new] at hp
  · intro p hp
    simp [new] at hp
  · intro p hp
    simp [new] at hp

theorem reachableG_wf {g : Graph K T} (h : ReachableG g) : WellFormed g := by
  induction h with
  | new => exact new_wf
  | addVertex g id item _ ih => exact addVertex_wf g id item ih
  | addEdge g fromId toId _ ih =>
    cases hf : lookupV g.vertices fromId with
    | none =>
      have : (addEdge g fromId toId).1 = g := by
        simp only [addEdge, hf]
      rw [this]
      exact ih
    | some vf =>
      cases ht : lookupV g.vertices toId with
      | none =>
        have : (addEdge g fromId toId).1 = g := by
          simp only [addEdge, hf, ht]
        rw [this]
        exact ih
      | some vt => exact addEdge_wf ih hf ht

theorem w1Graph_acyclic : Acyclic w1Graph := by
  have hv : w1Graph.vertices = [(0, ⟨[], [], 5⟩)] := by decide
  have hno : ∀ u v : Nat, ¬ edgeRel w1Graph u v := by
    intro u v h
    unfold edgeRel childrenOf at h
    rw [hv] at h
    by_cases hu : u = 0
    · rw [hu] at h
      simp [lookupV] at h
    · simp [lookupV, hu] at h
  constructor
  intro a
  exact Acc.intro a fun y hy => absurd hy (hno y a)

/-- C1 counterexample: on `c1Graph` (three vertices, a two-cycle plus an
isolated zero-in-degree vertex) `Sort` returns the partial sequence `[10]`
covering one vertex of three, with **no** error — contradicting "it never
returns a partial sequence covering only some vertices without reporting
an error". -/
theorem claim_C1_counterexample :
    (sortGraph c1Graph [0, 1, 2]).map (fun r => (r.1, r.2.1)) = some ([10], none) ∧
    order c1Graph = 3 := by
  refine ⟨by decide, by decide⟩

/-- C1 as amended: for every well-formed graph and every vertex-map
iteration order, `Sort` returns a result (never diverges); when it returns
without error, the sequence consists of the payloads of *distinct*
vertices and, for every edge `u → v` whose target is emitted, `u`'s
payload appears strictly before `v`'s; when the graph is acyclic the
sequence covers every vertex exactly once.  (A cyclic graph that still has
a zero-in-degree vertex yields a partial sequence without error, as the
counterexample shows.) -/
theorem claim_C1_sort_topological {K T : Type} [DecidableEq K] [Inhabited T]
    (g : Graph K T) (vorder : List K) (hwf : WellFormed g)
    (hperm : vorder.Perm (keysOf g.vertices)) :
    (∃ r, sortGraph g vorder = some r) ∧
    (∀ res err g', sortGraph g vorder = some (res, err, g') → err = none →
      ∃ ks : List K, res = ks.map (payloadOf g.vertices) ∧ ks.Nodup ∧
        (∀ k ∈ ks, k ∈ keysOf g.vertices) ∧
        (∀ u v, edgeRel g u v → v ∈ ks → Before ks u v) ∧
        (Acyclic g → ks.Perm (keysOf g.vertices))) := by
  rcases sortCore_spec g.vertices hwf vorder hperm with
    ⟨_, hcore⟩ | ⟨accE, vsE, hcore, hinvE⟩
  · have hg : sortGraph g vorder =
        some ([], some GraphError.cycleDetected, g) := by
      simp [sortGraph, hcore]
    refine ⟨⟨_, hg⟩, ?_⟩
    intro res err g' hsome hnone
    rw [hg] at hsome
    have h1 := Option.some.inj hsome
    have herr : some GraphError.cycleDetected = err := congrArg (fun r => r.2.1) h1
    rw [hnone] at herr
    simp at herr
  · have hg : sortGraph g vorder =
        some (accE.map Prod.snd, none, ⟨vsE, g.edges⟩) := by
      simp [sortGraph, hcore]
    obtain ⟨hnd, hkeys, hpay, hbef, hcomp, _⟩ :=
      loopInv_final g.vertices hwf vsE accE hinvE
    refine ⟨⟨_, hg⟩, ?_⟩
    intro res err g' hsome _
    rw [hg] at hsome
    have h1 := Option.some.inj hsome
    have hres : accE.map Prod.snd = res := congrArg (fun r => r.1) h1
    refine ⟨accE.map Prod.fst, ?_, hnd, hkeys, ?_, hcomp⟩
    · rw [← hres]
      exact hpay
    · intro u v hedge hv
      exact hbef u v hedge hv

theorem claim_C1_witness :
    WellFormed w1Graph ∧ ([0] : List Nat).Perm (keysOf w1Graph.vertices) ∧
    ((∃ r, sortGraph w1Graph [0] = some r) ∧
      (∀ res err g', sortGraph w1Graph [0] = some (res, err, g') → err = none →
        ∃ ks : List Nat, res = ks.map (payloadOf w1Graph.vertices) ∧ ks.Nodup ∧
          (∀ k ∈ ks, k ∈ keysOf w1Graph.vertices) ∧
          (∀ u v, edgeRel w1Graph u v → v ∈ ks → Before ks u v) ∧
          (Acyclic w1Graph → ks.Perm (keysOf w1Graph.vertices)))) :=
  ⟨by decide, by decide,
    claim_C1_sort_topological w1Graph [0] (by decide) (by decide)⟩

/-- C2 counterexample: after `AddVertex 0`, `AddVertex 1`, `AddEdge 0 1`
and one `Sort()`, the resulting graph state has `1` in the children set of
`0` but no longer has `0` in the parents set of `1` — `Sort` strips the
parents side of the mirror and leaves the children side intact. -/
theorem claim_C2_counterexample :
    (sortGraph c2Graph [0, 1]).map
      (fun r => (childrenOf r.2.2.vertices 0, parentsOf r.2.2.vertices 1)) =
      some ([1], []) := by
  decide

/-- C2 as amended: the parent/child mirror invariant holds after every
sequence of `AddVertex`/`AddEdge` operations (successful or failed): `v`
is in `u`'s children set iff `u` is in `v`'s parents set.  `Sort()`,
however, destroys the invariant (see the counterexample): it removes
parents-set entries while leaving the matching children entries in
place. -/
theorem claim_C2_mirror {K T : Type} [DecidableEq K] (g : Graph K T)
    (h : ReachableG g) :
    ∀ u v, v ∈ childrenOf g.vertices u ↔ u ∈ parentsOf g.vertices v := by
  have hwf := reachableG_wf h
  intro u v
  exact ⟨fun hc => wf_mirror_cp hwf hc, fun hp => wf_mirror_pc hwf hp⟩

theorem claim_C2_witness :
    ReachableG c2Graph ∧
    (∀ u v, v ∈ childrenOf c2Graph.vertices u ↔ u ∈ parentsOf c2Graph.vertices v) := by
  have hreach : ReachableG c2Graph :=
    ReachableG.addEdge _ 0 1 (ReachableG.addVertex _ 1 2
      (ReachableG.addVertex _ 0 1 ReachableG.new))
  exact ⟨hreach, claim_C2_mirror c2Graph hreach⟩

/-- C3 counterexample: `c3Graph` carries the self-loop `0 → 0` created by
`AddEdge(0,0)`, yet `Sort` does **not** fail: it returns `[21]` (the
isolated vertex's payload) with no error, because vertex `1` has in-degree
zero. -/
theorem claim_C3_counterexample :
    (sortGraph c3Graph [0, 1]).map (fun r => (r.1, r.2.1)) = some ([21], none) ∧
    0 ∈ parentsOf c3Graph.vertices 0 := by
  refine ⟨by decide, by decide⟩

/-- C3 as amended: a self-loop on `v` does *not* guarantee a
cycle-detected error (`Sort` fails only when no vertex has in-degree
zero); what it does guarantee is that `v` is never emitted, so any
successful `Sort` returns a sequence strictly shorter than the number of
vertices — never a complete topological order. -/
theorem claim_C3_selfloop {K T : Type} [DecidableEq K] [Inhabited T]
    (g : Graph K T) (v : K) (vorder : List K) (hwf : WellFormed g)
    (hself : v ∈ parentsOf g.vertices v)
    (hperm : vorder.Perm (keysOf g.vertices)) :
    ∀ res g', sortGraph g vorder = some (res, none, g') → res.length < order g := by
  intro res g' hsome
  rcases sortCore_spec g.vertices hwf vorder hperm with
    ⟨_, hcore⟩ | ⟨accE, vsE, hcore, hinvE⟩
  · have hg : sortGraph g vorder =
        some ([], some GraphError.cycleDetected, g) := by
      simp [sortGraph, hcore]
    rw [hg] at hsome
    have h1 := Option.some.inj hsome
    have herr : some GraphError.cycleDetected = (none : Option GraphError) :=
      congrArg (fun r => r.2.1) h1
    simp at herr
  · have hg : sortGraph g vorder =
        some (accE.map Prod.snd, none, ⟨vsE, g.edges⟩) := by
      simp [sortGraph, hcore]
    rw [hg] at hsome
    have h1 := Option.some.inj hsome
    have hres : accE.map Prod.snd = res := congrArg (fun r => r.1) h1
    obtain ⟨hnd, hkeys, _, _, _, hnoself⟩ :=
      loopInv_final g.vertices hwf vsE accE hinvE
    have hvnot : v ∉ accE.map Prod.fst := hnoself v hself
    have hvkeys : v ∈ keysOf g.vertices := wf_parentsOf_keys hwf hself
    have hsp : (accE.map Prod.fst ++ [v]).Subperm (keysOf g.vertices) := by
      apply List.subperm_of_subset
      · rw [List.nodup_append]
        exact ⟨hnd, List.nodup_singleton _, fun x hx hxv =>
          hvnot (by rw [← List.mem_singleton.mp hxv]; exact hx)⟩
      · intro x hx
        rcases List.mem_append.mp hx with hx1 | hx2
        · exact hkeys x hx1
        · rw [List.mem_singleton.mp hx2]
          exact hvkeys
    have hlen := hsp.length_le
    rw [← hres]
    simp only [List.length_append, List.length_map, List.length_singleton] at hlen ⊢
    unfold order
    unfold keysOf at hlen
    simp only [List.length_map] at hlen
    omega

theorem claim_C3_witness :
    WellFormed c3Graph ∧ 0 ∈ parentsOf c3Graph.vertices 0 ∧
    ([0, 1] : List Nat).Perm (keysOf c3Graph.vertices) ∧
    (∀ res g', sortGraph c3Graph [0, 1] = some (res, none, g') →
      res.length < order c3Graph) :=
  ⟨by decide, by decide, by decide,
    claim_C3_selfloop c3Graph 0 [0, 1] (by decide) (by decide) (by decide)⟩

/-- C4 counterexample: the Go code fails with the cycle error on the
**empty** graph as well — the initial scan finds no zero-in-degree vertex
because there are no vertices at all — contradicting the claim's "the
graph's vertex set is non-empty" qualification. -/
theorem claim_C4_counterexample :
    sortGraph (new : Graph Nat Nat) [] =
      some ([], some GraphError.cycleDetected, new) ∧
    order (new : Graph Nat Nat) = 0 := by
  refine ⟨by decide, by decide⟩

/-- C4 as amended: `Sort()` fails with the cycle-detected error **iff** no
vertex has in-degree zero at the time of the call — with no non-emptiness
qualification, so the empty graph (vacuously without zero-in-degree
vertices) also fails. -/
theorem claim_C4_cycle_error {K T : Type} [DecidableEq K] [Inhabited T]
    (g : Graph K T) (vorder : List K) (hwf : WellFormed g)
    (hperm : vorder.Perm (keysOf g.vertices)) :
    sortGraph g vorder = some ([], some GraphError.cycleDetected, g) ↔
      ∀ k ∈ keysOf g.vertices, parentsOf g.vertices k ≠ [] := by
  constructor
  · intro h k hk hpar
    rcases sortCore_spec g.vertices hwf vorder hperm with
      ⟨hinit, _⟩ | ⟨accE, vsE, hcore, _⟩
    · have hmem : k ∈ sortQueueInit g.vertices vorder := by
        obtain ⟨v, hv⟩ := lookupV_eq_some_of_mem_keys g.vertices k hk
        refine List.mem_filter.mpr ⟨hperm.mem_iff.mpr hk, ?_⟩
        rw [parentsOf_eq _ hv] at hpar
        simp [hv, hpar]
      rw [hinit] at hmem
      simp at hmem
    · have hg : sortGraph g vorder =
          some (accE.map Prod.snd, none, ⟨vsE, g.edges⟩) := by
        simp [sortGraph, hcore]
      rw [hg] at h
      have h1 := Option.some.inj h
      have herr : (none : Option GraphError) = some GraphError.cycleDetected :=
        congrArg (fun r => r.2.1) h1
      simp at herr
  · intro hall
    have hinit : sortQueueInit g.vertices vorder = [] := by
      apply List.filter_eq_nil_iff.mpr
      intro a ha
      cases hl : lookupV g.vertices a with
      | none => simp
      | some v =>
        have hak : a ∈ keysOf g.vertices := mem_keys_of_lookupV_eq_some hl
        have := hall a hak
        rw [parentsOf_eq _ hl] at this
        have hlen : v.parents.length ≠ 0 := by
          intro h0
          exact this (List.length_eq_zero.mp h0)
        simp [hlen]
    have hcoreq : sortCore g.vertices vorder =
        some ([], some GraphError.cycleDetected, g.vertices) := by
      simp only [sortCore, hinit]
      rfl
    simp only [sortGraph, hcoreq]
    rfl

theorem claim_C4_witness :
    WellFormed c4Graph ∧ ([0, 1] : List Nat).Perm (keysOf c4Graph.vertices) ∧
    (sortGraph c4Graph [0, 1] =
        some ([], some GraphError.cycleDetected, c4Graph) ↔
      ∀ k ∈ keysOf c4Graph.vertices, parentsOf c4Graph.vertices k ≠ []) :=
  ⟨by decide, by decide, claim_C4_cycle_error c4Graph [0, 1] (by decide) (by decide)⟩

/-- C9: `AddVertex(id, payload)` fails iff a vertex with that id is
already present; on failure the graph is fully unchanged (so `GetVertex`
still returns the first payload and `Order` is not incremented); on
success a fresh vertex with empty parents and children sets is appended
and `Order` grows by one. -/
theorem claim_C9_addVertex {K T : Type} [DecidableEq K] [Inhabited T]
    (g : Graph K T) (id : K) (item : T) :
    ((addVertex g id item).2 = some GraphError.duplicateVertex ↔
      (lookupV g.vertices id).isSome) ∧
    ((lookupV g.vertices id).isSome →
      (addVertex g id item).1 = g ∧
      getVertex (addVertex g id item).1 id = getVertex g id ∧
      order (addVertex g id item).1 = order g) ∧
    (¬ (lookupV g.vertices id).isSome →
      (addVertex g id item).2 = none ∧
      (addVertex g id item).1.vertices = g.vertices ++ [(id, ⟨[], [], item⟩)] ∧
      order (addVertex g id item).1 = order g + 1) := by
  unfold addVertex
  by_cases h : (lookupV g.vertices id).isSome
  · rw [if_pos h]
    refine ⟨by simp [h], fun _ => ⟨rfl, rfl, rfl⟩, fun hn => absurd h hn⟩
  · rw [if_neg h]
    refine ⟨by simp [h], fun hp => absurd hp h, fun _ => ⟨rfl, rfl, ?_⟩⟩
    unfold order
    simp

theorem claim_C9_witness :
    (((addVertex c2Graph 0 99).2 = some GraphError.duplicateVertex ↔
        (lookupV c2Graph.vertices 0).isSome) ∧
      ((lookupV c2Graph.vertices 0).isSome →
        (addVertex c2Graph 0 99).1 = c2Graph ∧
        getVertex (addVertex c2Graph 0 99).1 0 = getVertex c2Graph 0 ∧
        order (addVertex c2Graph 0 99).1 = order c2Graph) ∧
      (¬ (lookupV c2Graph.vertices 0).isSome →
        (addVertex c2Graph 0 99).2 = none ∧
        (addVertex c2Graph 0 99).1.vertices =
          c2Graph.vertices ++ [(0, ⟨[], [], 99⟩)] ∧
        order (addVertex c2Graph 0 99).1 = order c2Graph + 1)) ∧
    (((addVertex c2Graph 7 99).2 = some GraphError.duplicateVertex ↔
        (lookupV c2Graph.vertices 7).isSome) ∧
      ((lookupV c2Graph.vertices 7).isSome →
        (addVertex c2Graph 7 99).1 = c2Graph ∧
        getVertex (addVertex c2Graph 7 99).1 7 = getVertex c2Graph 7 ∧
        order (addVertex c2Graph 7 99).1 = order c2Graph) ∧
      (¬ (lookupV c2Graph.vertices 7).isSome →
        (addVertex c2Graph 7 99).2 = none ∧
        (addVertex c2Graph 7 99).1.vertices =
          c2Graph.vertices ++ [(7, ⟨[], [], 99⟩)] ∧
        order (addVertex c2Graph 7 99).1 = order c2Graph + 1)) :=
  ⟨claim_C9_addVertex c2Graph 0 99, claim_C9_addVertex c2Graph 7 99⟩

/-- C10: calling `AddEdge` again on an already-connected pair succeeds,
increments the edge counter again (so `Size()` can exceed the number of
distinct edges), leaves both adjacency sets — indeed the whole vertex
map — unchanged, and therefore does not affect the result (sequence and
error) of `Sort()`. -/
theorem claim_C10_duplicate_edge {K T : Type} [DecidableEq K] [Inhabited T]
    (g : Graph K T) (fromId toId : K) (vf vt : Vertex K T)
    (hf : lookupV g.vertices fromId = some vf)
    (ht : lookupV g.vertices toId = some vt)
    (hc : toId ∈ vf.children) (hp : fromId ∈ vt.parents) :
    (addEdge g fromId toId).2 = none ∧
    (addEdge g fromId toId).1.vertices = g.vertices ∧
    size (addEdge g fromId toId).1 = size g + 1 ∧
    (∀ vorder, (sortGraph (addEdge g fromId toId).1 vorder).map
        (fun r => (r.1, r.2.1)) =
      (sortGraph g vorder).map (fun r => (r.1, r.2.1))) := by
  have hvs : (addEdge g fromId toId).1.vertices = g.vertices := by
    simp only [addEdge, hf, ht]
    have h1 : modifyV g.vertices fromId
        (fun v => { v with children := setInsert v.children toId }) = g.vertices := by
      apply modifyV_id
      intro v hv
      rw [hf] at hv
      injection hv with hv
      rw [← hv]
      rw [setInsert_eq_self hc]
    rw [h1]
    apply modifyV_id
    intro v hv
    rw [ht] at hv
    injection hv with hv
    rw [← hv]
    rw [setInsert_eq_self hp]
  refine ⟨by simp only [addEdge, hf, ht], hvs, by simp only [addEdge, hf, ht, size], ?_⟩
  intro vorder
  simp only [sortGraph, hvs]
  cases sortCore g.vertices vorder with
  | none => rfl
  | some r => rfl

theorem claim_C10_witness :
    lookupV c10Graph.vertices 0 = some ⟨[], [1], 1⟩ ∧
    lookupV c10Graph.vertices 1 = some ⟨[0], [], 2⟩ ∧
    ((addEdge c10Graph 0 1).2 = none ∧
      (addEdge c10Graph 0 1).1.vertices = c10Graph.vertices ∧
      size (addEdge c10Graph 0 1).1 = size c10Graph + 1 ∧
      (∀ vorder, (sortGraph (addEdge c10Graph 0 1).1 vorder).map
          (fun r => (r.1, r.2.1)) =
        (sortGraph c10Graph vorder).map (fun r => (r.1, r.2.1)))) :=
  ⟨by decide, by decide,
    claim_C10_duplicate_edge c10Graph 0 1 ⟨[], [1], 1⟩ ⟨[0], [], 2⟩
      (by decide) (by decide) (by decide) (by decide)⟩

end Dag

end Collections
